import Mathlib

/-!
Verification of the Ghost-Finder people-counting pipeline (counter.py, app.py).

The Python dictionaries `objects`, `disappeared` and `last_seen` are embedded as
insertion-ordered association lists (Python dicts iterate in insertion order, and
that order is observable in the greedy matching loop).  Machine integers are
embedded as `Nat`/`Int`.  The source compares Euclidean distances
`math.hypot(cx-ox, cy-oy)` with each other and with `max_distance`; on the exact
values involved these comparisons are order-isomorphic to comparisons of squared
distances, which we use so that all arithmetic stays in exact integers.
-/

/-- Value of key `k` in an association list (first entry wins, like a dict). -/
def alGet? {α : Type} : List (Nat × α) → Nat → Option α
  | [], _ => none
  | p :: rest, k => if p.1 = k then some p.2 else alGet? rest k

/-- Dict assignment `l[k] = v`: update the entry in place when the key is
present, otherwise append the new binding at the end (insertion order). -/
def alSet {α : Type} : List (Nat × α) → Nat → α → List (Nat × α)
  | [], k, v => [(k, v)]
  | p :: rest, k, v => if p.1 = k then (k, v) :: rest else p :: alSet rest k v

/-- Dict removal `l.pop(k, None)`. -/
def alPop {α : Type} (l : List (Nat × α)) (k : Nat) : List (Nat × α) :=
  l.filter (fun p => ¬ p.1 = k)

/-- State of `CentroidTracker` (counter.py lines 13-18): `objects` maps an id to
its centroid, `disappeared` maps an id to the frames since it was last seen. -/
structure Tracker where
  next_id : Nat
  objects : List (Nat × Int × Int)
  disappeared : List (Nat × Nat)
  max_distance : Nat
  max_disappeared : Nat
deriving DecidableEq

/-- `CentroidTracker.__init__` (defaults `max_distance=50`, `max_disappeared=10`). -/
def trackerInit (max_distance : Nat) (max_disappeared : Nat) : Tracker :=
  { next_id := 0, objects := [], disappeared := [],
    max_distance := max_distance, max_disappeared := max_disappeared }

/-- Squared Euclidean distance between a detection centroid and an object
centroid; stands for `math.hypot(cx - ox, cy - oy)` up to the order-preserving
squaring map. -/
def distSq (c o : Int × Int) : Int :=
  (c.1 - o.1) ^ 2 + (c.2 - o.2) ^ 2

/-- Inner loop of the greedy match (counter.py lines 43-51): scan the tracked
objects in iteration order, skip claimed ids, keep the strictly best squared
distance that is strictly under `max_distance` squared. -/
def findBestAux (used : List Nat) (c : Int × Int) (maxD : Nat) :
    List (Nat × Int × Int) → Option (Nat × Int) → Option (Nat × Int)
  | [], best => best
  | p :: rest, best =>
      if p.1 ∈ used then
        findBestAux used c maxD rest best
      else
        match best with
        | none =>
            if distSq c p.2 < (maxD : Int) ^ 2 then
              findBestAux used c maxD rest (some (p.1, distSq c p.2))
            else
              findBestAux used c maxD rest none
        | some (b, bd) =>
            if distSq c p.2 < bd ∧ distSq c p.2 < (maxD : Int) ^ 2 then
              findBestAux used c maxD rest (some (p.1, distSq c p.2))
            else
              findBestAux used c maxD rest (some (b, bd))

/-- Best unclaimed object id for one detection, `None` when no object qualifies. -/
def findBest (used : List Nat) (c : Int × Int) (maxD : Nat)
    (objects : List (Nat × Int × Int)) : Option Nat :=
  (findBestAux used c maxD objects none).map Prod.fst

/-- Mutable loop state of `CentroidTracker.update` while matching detections. -/
structure MatchAcc where
  new_objects : List (Nat × Int × Int)
  used : List Nat
  disappeared : List (Nat × Nat)
  next_id : Nat
  assignments : List Int
deriving DecidableEq

/-- One iteration of the greedy matching loop (counter.py lines 42-64): match
the detection to the best unclaimed object, or register a brand new id. -/
def matchStep (maxD : Nat) (objects : List (Nat × Int × Int))
    (acc : MatchAcc) (c : Int × Int) : MatchAcc :=
  match findBest acc.used c maxD objects with
  | none =>
      { new_objects := acc.new_objects ++ [(acc.next_id, c)]
        used := acc.used ++ [acc.next_id]
        disappeared := alSet acc.disappeared acc.next_id 0
        next_id := acc.next_id + 1
        assignments := acc.assignments ++ [(acc.next_id : Int)] }
  | some bid =>
      { new_objects := acc.new_objects ++ [(bid, c)]
        used := acc.used ++ [bid]
        disappeared := alSet acc.disappeared bid 0
        next_id := acc.next_id
        assignments := acc.assignments ++ [(bid : Int)] }

/-- The full greedy matching loop over the detections, in input order. -/
def matchPhase (maxD : Nat) (objects : List (Nat × Int × Int)) :
    List (Int × Int) → MatchAcc → MatchAcc
  | [], acc => acc
  | c :: rest, acc => matchPhase maxD objects rest (matchStep maxD objects acc c)

/-- Disappearance pass (counter.py lines 67-72): every previously tracked object
not matched this frame has its disappeared count incremented and survives into
`new_objects` only while the count stays at most `max_disappeared`. -/
def agePass (mx : Nat) :
    List (Nat × Int × Int) → List (Nat × Int × Int) × List (Nat × Nat) →
    List (Nat × Int × Int) × List (Nat × Nat)
  | [], acc => acc
  | p :: rest, (no, dis) =>
      if p.1 ∈ no.map Prod.fst then
        agePass mx rest (no, dis)
      else
        let d := (alGet? dis p.1).getD 0 + 1
        if d ≤ mx then
          agePass mx rest (no ++ [p], alSet dis p.1 d)
        else
          agePass mx rest (no, alSet dis p.1 d)

/-- Registration branch of `update` (counter.py lines 30-36): with no tracked
objects, every detection becomes a fresh identity. -/
def registerAll : List (Int × Int) → Tracker → List Int → Tracker × List Int
  | [], t, asg => (t, asg)
  | c :: rest, t, asg =>
      registerAll rest
        { t with objects := t.objects ++ [(t.next_id, c)],
                 disappeared := alSet t.disappeared t.next_id 0,
                 next_id := t.next_id + 1 }
        (asg ++ [(t.next_id : Int)])

/-- `CentroidTracker.update` (counter.py lines 20-75): returns the new tracker
state and the per-detection assignment list (`-1` is never left in place, since
every detection either matches an object or registers a fresh id). -/
def Tracker.update (t : Tracker) (detections : List (Int × Int)) :
    Tracker × List Int :=
  if t.objects.length = 0 then
    registerAll detections t []
  else
    let m := matchPhase t.max_distance t.objects detections
      { new_objects := [], used := [], disappeared := t.disappeared,
        next_id := t.next_id, assignments := [] }
    let r := agePass t.max_disappeared t.objects (m.new_objects, m.disappeared)
    ({ t with objects := r.1, disappeared := r.2, next_id := m.next_id },
     m.assignments)

/-- Iterated empty-detection updates. -/
def updateN (t : Tracker) : Nat → Tracker
  | 0 => t
  | n + 1 => ((updateN t n).update []).1

/-- An object entry qualifies for a detection when its id is unclaimed and its
squared distance is strictly under `max_distance` squared. -/
def Qual (used : List Nat) (c : Int × Int) (maxD : Nat) (p : Nat × Int × Int) : Prop :=
  p.1 ∉ used ∧ distSq c p.2 < (maxD : Int) ^ 2

instance (used : List Nat) (c : Int × Int) (maxD : Nat) (p : Nat × Int × Int) :
    Decidable (Qual used c maxD p) := by
  unfold Qual
  infer_instance

/-- Reachable-state invariant of `CentroidTracker`: the `disappeared` dict holds
every id ever allocated (keys `0 .. next_id - 1` in allocation order), the
active ids are distinct, below `next_id`, and carry counts at most
`max_disappeared`, while ids dropped from the active set sit at exactly
`max_disappeared + 1` forever. -/
def Tracker.Inv (t : Tracker) : Prop :=
  t.disappeared.map Prod.fst = List.range t.next_id ∧
  (t.objects.map Prod.fst).Nodup ∧
  (∀ p ∈ t.objects, p.1 < t.next_id) ∧
  (∀ p ∈ t.disappeared,
    (p.1 ∈ t.objects.map Prod.fst → p.2 ≤ t.max_disappeared) ∧
    (p.1 ∉ t.objects.map Prod.fst → p.2 = t.max_disappeared + 1))

/-- Invariant carried along the greedy matching loop: `objects`, `D0` and `n0`
are the tracker's object list, `disappeared` map and `next_id` at the start of
the `update` call. -/
def AccOk (objects : List (Nat × Int × Int)) (D0 : List (Nat × Nat)) (n0 : Nat)
    (acc : MatchAcc) : Prop :=
  acc.disappeared.map Prod.fst = List.range acc.next_id ∧
  n0 ≤ acc.next_id ∧
  acc.used = acc.new_objects.map Prod.fst ∧
  (acc.new_objects.map Prod.fst).Nodup ∧
  (∀ k ∈ acc.new_objects.map Prod.fst, alGet? acc.disappeared k = some 0) ∧
  (∀ k, k ∉ acc.new_objects.map Prod.fst →
    alGet? acc.disappeared k = alGet? D0 k) ∧
  (∀ k ∈ acc.new_objects.map Prod.fst,
    k ∈ objects.map Prod.fst ∨ (n0 ≤ k ∧ k < acc.next_id)) ∧
  acc.assignments.filter (fun a => (n0 : Int) ≤ a)
    = (List.range' n0 (acc.next_id - n0)).map Int.ofNat

/-! ### PeopleCounter and web layer -/

/-- Persisted count-change event (models.CountEvent as used by counter.py):
`direction` is always the sentinel "PRESENT", `lobby_count` the new count.
Events are appended in timestamp order, so the most recent event is the last
element of the store list. -/
structure CountEvent where
  direction : String
  lobby_count : Nat
deriving DecidableEq

/-- In-memory pipeline state of `PeopleCounter` together with the persisted
event store (`events` stands for the CountEvent table, in append order). -/
structure CounterState where
  tracker : Tracker
  lobby_count : Nat
  last_seen : List (Nat × Nat)
  frame_index : Nat
  skip_frames : Nat
  events : List CountEvent
deriving DecidableEq

/-- `PeopleCounter.__init__` state (counter.py lines 97 and 108-111): tracker
with `max_distance=70` and `max_disappeared=12`, zero count, empty bookkeeping,
and a skip stride clamped to at least 1. -/
def counterInit (skip_frames : Nat) : CounterState :=
  { tracker := trackerInit 70 12, lobby_count := 0, last_seen := [],
    frame_index := 0, skip_frames := max 1 skip_frames, events := [] }

/-- `PeopleCounter._log_event` (counter.py lines 114-118): build the event and
perform a single add+commit against the store.  `commitOk i` says whether the
i-th commit attempt of this call would succeed; the second component counts the
commit attempts actually made — the source performs exactly one, with no retry
and no exception handler, so a failure propagates to the caller. -/
def log_event (commitOk : Nat → Bool) (events : List CountEvent)
    (lobby_count : Nat) : Except Unit (List CountEvent) × Nat :=
  (if commitOk 0 then Except.ok (events ++ [⟨"PRESENT", lobby_count⟩])
   else Except.error (), 1)

/-- `PeopleCounter._cleanup_stale_ids` (counter.py lines 120-129): collect the
ids that are not active and were last seen more than 90 frames ago, then pop
them from the last-seen map. -/
def cleanup_stale_ids (last_seen : List (Nat × Nat)) (active_ids : List Nat)
    (frame_index : Nat) : List (Nat × Nat) :=
  let stale := (last_seen.map Prod.fst).filter (fun obj_id =>
    decide (obj_id ∉ active_ids ∧
      (frame_index : Int) - (match alGet? last_seen obj_id with
        | some v => (v : Int)
        | none => -1) > 90))
  stale.foldl (fun acc obj_id => alPop acc obj_id) last_seen

/-- Last-seen refresh (counter.py lines 185-189): every id assigned to a
detection this frame is stamped with the current frame index. -/
def updateLastSeen (last_seen : List (Nat × Nat)) (assignments : List Int)
    (frame_index : Nat) : List (Nat × Nat) :=
  assignments.foldl (fun acc a =>
    if a = -1 then acc else alSet acc a.toNat frame_index) last_seen

/-- Aggregation step (counter.py lines 176-179 with the event built in
`_log_event`, on the path where the append succeeds): refresh the recorded
count and append one event exactly when the active count differs from it. -/
def aggregateCount (lobby_count : Nat) (events : List CountEvent)
    (current : Nat) : Nat × List CountEvent :=
  if current ≠ lobby_count then
    (current, events ++ [⟨"PRESENT", current⟩])
  else
    (lobby_count, events)

/-- Outcome of one ingested frame: dropped by the skip stride, processed up to
the yield stage, or aborted by an escaping store exception. -/
inductive FrameResult
  | skipped
  | yielded
  | crashed
deriving DecidableEq

/-- One iteration of the `PeopleCounter.generate_frames` loop (counter.py lines
133-209) on an ingested frame, with the detector abstracted: `dets` is the
centroid list the YOLO stage yields for this frame.  The frame index always
advances; frames with `frame_index % skip_frames ≠ 0` are dropped before any
tracking work.  On processed frames the tracker is updated, stale bookkeeping
cleaned, and an event appended when the count changed; a store failure inside
`_log_event` propagates out of the generator (no retry, no handler), so the
state keeps the already-assigned `lobby_count` but the loop dies
(`FrameResult.crashed`).  `yielded` stands for reaching the JPEG-yield stage;
encoding is an abstracted external step. -/
def ingestFrame (commitOk : Nat → Bool) (st : CounterState)
    (dets : List (Int × Int)) : CounterState × FrameResult :=
  let fi := st.frame_index + 1
  if fi % st.skip_frames ≠ 0 then
    ({ st with frame_index := fi }, FrameResult.skipped)
  else
    let ur := st.tracker.update dets
    let active := ur.1.objects.map Prod.fst
    let ls := cleanup_stale_ids st.last_seen active fi
    let current := active.length
    if current ≠ st.lobby_count then
      match log_event commitOk st.events current with
      | (Except.error _, _) =>
          ({ st with tracker := ur.1, lobby_count := current,
                     last_seen := ls, frame_index := fi }, FrameResult.crashed)
      | (Except.ok evs, _) =>
          ({ st with tracker := ur.1, lobby_count := current,
                     last_seen := updateLastSeen ls ur.2 fi,
                     frame_index := fi, events := evs }, FrameResult.yielded)
    else
      ({ st with tracker := ur.1,
                 last_seen := updateLastSeen ls ur.2 fi,
                 frame_index := fi }, FrameResult.yielded)

/-- `app.current_stats` (app.py lines 25-32): read the most recent persisted
event's count (the query orders by timestamp descending and takes the first,
which under append order is the last element; 0 when no event exists) and
write it back into the live counter object. -/
def current_stats (st : CounterState) : Nat × CounterState :=
  let lobby_count := ((st.events.getLast?).map CountEvent.lobby_count).getD 0
  (lobby_count, { st with lobby_count := lobby_count })


/-- Iterated updates over a list of per-frame detection lists. -/
def runUpdates (t : Tracker) : List (List (Int × Int)) → Tracker
  | [] => t
  | d :: ds => runUpdates (t.update d).1 ds

/-- Ids freshly allocated across a run of updates, in allocation order: within
one call the fresh assignments are the ones at or above that call's starting
`next_id`. -/
def runFresh (t : Tracker) : List (List (Int × Int)) → List Int
  | [] => []
  | d :: ds => (t.update d).2.filter (fun a => (t.next_id : Int) ≤ a)
      ++ runFresh (t.update d).1 ds

/-! ### Association-list lemmas -/

theorem alGet?_alSet_self {α : Type} (l : List (Nat × α)) (k : Nat) (v : α) :
    alGet? (alSet l k v) k = some v := by
  induction l with
  | nil => simp [alSet, alGet?]
  | cons p rest ih =>
      by_cases h : p.1 = k
      · simp [alSet, alGet?, h]
      · simp [alSet, alGet?, h, ih]

theorem alGet?_alSet_ne {α : Type} (l : List (Nat × α)) {j k : Nat} (v : α)
    (hjk : j ≠ k) : alGet? (alSet l k v) j = alGet? l j :=  by
  induction l with
  | nil => simp [alSet, alGet?, Ne.symm hjk]
  | cons p rest ih =>
      by_cases h : p.1 = k
      · subst h
        simp [alSet, alGet?, Ne.symm hjk]
      · by_cases h2 : p.1 = j <;> simp [alSet, alGet?, h, h2, hjk, ih]

theorem keys_alSet_of_mem {α : Type} {l : List (Nat × α)} {k : Nat} (v : α)
    (hk : k ∈ l.map Prod.fst) :
    (alSet l k v).map Prod.fst = l.map Prod.fst := by
  induction l with
  | nil => simp at hk
  | cons p rest ih =>
      by_cases h : p.1 = k
      · simp [alSet, h]
      · simp only [List.map_cons, List.mem_cons] at hk
        rcases hk with hk | hk
        · exact absurd hk.symm h
        · simp [alSet, h, ih hk]

theorem keys_alSet_of_not_mem {α : Type} {l : List (Nat × α)} {k : Nat} (v : α)
    (hk : k ∉ l.map Prod.fst) :
    (alSet l k v).map Prod.fst = l.map Prod.fst ++ [k] := by
  induction l with
  | nil => simp [alSet]
  | cons p rest ih =>
      simp only [List.map_cons, List.mem_cons] at hk
      push_neg at hk
      simp [alSet, Ne.symm hk.1, ih hk.2]

theorem alGet?_of_mem {α : Type} {l : List (Nat × α)}
    (hnd : (l.map Prod.fst).Nodup) {p : Nat × α} (hp : p ∈ l) :
    alGet? l p.1 = some p.2 := by
  induction l with
  | nil => simp at hp
  | cons q rest ih =>
      simp only [List.map_cons, List.nodup_cons] at hnd
      rcases List.mem_cons.mp hp with hp | hp
      · simp [alGet?, hp]
      · have hne : q.1 ≠ p.1 := by
          intro h
          exact hnd.1 (h ▸ List.mem_map_of_mem Prod.fst hp)
        simp [alGet?, hne, ih hnd.2 hp]

theorem mem_of_alGet? {α : Type} {l : List (Nat × α)} {k : Nat} {v : α}
    (h : alGet? l k = some v) : (k, v) ∈ l := by
  induction l with
  | nil => simp [alGet?] at h
  | cons p rest ih =>
      rw [alGet?] at h
      by_cases hk : p.1 = k
      · rw [if_pos hk] at h
        injection h with h
        exact List.mem_cons.mpr (Or.inl (by simp [← hk, ← h]))
      · rw [if_neg hk] at h
        exact List.mem_cons_of_mem _ (ih h)

theorem alGet?_eq_none_iff {α : Type} {l : List (Nat × α)} {k : Nat} :
    alGet? l k = none ↔ k ∉ l.map Prod.fst := by
  induction l with
  | nil => simp [alGet?]
  | cons p rest ih =>
      by_cases hk : p.1 = k
      · simp [alGet?, hk, eq_comm]
      · rw [alGet?, if_neg hk, ih]
        simp only [List.map_cons, List.mem_cons]
        constructor
        · intro h hc
          rcases hc with hc | hc
          · exact hk hc.symm
          · exact h hc
        · intro h hc
          exact h (Or.inr hc)

theorem alGet?_isSome_iff {α : Type} {l : List (Nat × α)} {k : Nat} :
    (∃ v, alGet? l k = some v) ↔ k ∈ l.map Prod.fst := by
  constructor
  · rintro ⟨v, hv⟩
    exact List.mem_map_of_mem Prod.fst (mem_of_alGet? hv)
  · intro hk
    cases h : alGet? l k with
    | none => exact absurd (alGet?_eq_none_iff.mp h) (not_not_intro hk)
    | some v => exact ⟨v, rfl⟩

/-! ### Characterization of the greedy best-match search -/

theorem fbAux_isSome (used : List Nat) (c : Int × Int) (maxD : Nat)
    (l : List (Nat × Int × Int)) :
    ∀ e, ∃ r, findBestAux used c maxD l (some e) = some r := by
  induction l with
  | nil => exact fun e => ⟨e, rfl⟩
  | cons p rest ih =>
      intro e
      by_cases hu : p.1 ∈ used
      · simpa [findBestAux, hu] using ih e
      · obtain ⟨b0, d0⟩ := e
        by_cases hc : distSq c p.2 < d0 ∧ distSq c p.2 < (maxD : Int) ^ 2
        · simpa [findBestAux, hu, hc] using ih (p.1, distSq c p.2)
        · simpa [findBestAux, hu, hc] using ih (b0, d0)

theorem fbAux_eq_none_iff (used : List Nat) (c : Int × Int) (maxD : Nat)
    (l : List (Nat × Int × Int)) :
    ∀ best, findBestAux used c maxD l best = none ↔
      best = none ∧ ∀ p ∈ l, ¬ Qual used c maxD p := by
  induction l with
  | nil => simp [findBestAux]
  | cons p rest ih =>
      intro best
      rcases best with _ | ⟨b0, d0⟩
      · by_cases hu : p.1 ∈ used
        · rw [findBestAux, if_pos hu, ih]
          simp only [List.mem_cons, true_and]
          constructor
          · intro h q hq
            rcases hq with hq | hq
            · subst hq
              exact fun hQ => hQ.1 hu
            · exact h q hq
          · intro h q hq
            exact h q (Or.inr hq)
        · by_cases hd : distSq c p.2 < (maxD : Int) ^ 2
          · rw [findBestAux, if_neg hu, if_pos hd]
            obtain ⟨r, hr⟩ := fbAux_isSome used c maxD rest (p.1, distSq c p.2)
            rw [hr]
            simp only [List.mem_cons, true_and]
            constructor
            · intro h
              exact absurd h (by simp)
            · intro h2
              exact absurd ⟨hu, hd⟩ (h2 p (Or.inl rfl))
          · rw [findBestAux, if_neg hu, if_neg hd, ih]
            simp only [List.mem_cons, true_and]
            constructor
            · intro h q hq
              rcases hq with hq | hq
              · subst hq
                exact fun hQ => hd hQ.2
              · exact h q hq
            · intro h q hq
              exact h q (Or.inr hq)
      · obtain ⟨r, hr⟩ := fbAux_isSome used c maxD (p :: rest) (b0, d0)
        rw [hr]
        simp

theorem fbAux_le (used : List Nat) (c : Int × Int) (maxD : Nat)
    (l : List (Nat × Int × Int)) :
    ∀ best b d, findBestAux used c maxD l best = some (b, d) →
      (∀ e, best = some e → d ≤ e.2) ∧
      (∀ p ∈ l, Qual used c maxD p → d ≤ distSq c p.2) := by
  induction l with
  | nil =>
      intro best b d h
      rw [findBestAux] at h
      subst h
      exact ⟨fun e he => by cases he; exact le_refl _, by simp⟩
  | cons p rest ih =>
      intro best b d h
      rcases best with _ | ⟨b0, d0⟩
      · by_cases hu : p.1 ∈ used
        · rw [findBestAux, if_pos hu] at h
          obtain ⟨h1, h2⟩ := ih none b d h
          refine ⟨by simp, fun q hq hQ => ?_⟩
          rcases List.mem_cons.mp hq with hq | hq
          · subst hq
            exact absurd hu hQ.1
          · exact h2 q hq hQ
        · by_cases hd : distSq c p.2 < (maxD : Int) ^ 2
          · rw [findBestAux, if_neg hu, if_pos hd] at h
            obtain ⟨h1, h2⟩ := ih _ b d h
            have hdp : d ≤ distSq c p.2 := h1 (p.1, distSq c p.2) rfl
            refine ⟨by simp, fun q hq hQ => ?_⟩
            rcases List.mem_cons.mp hq with hq | hq
            · subst hq
              exact hdp
            · exact h2 q hq hQ
          · rw [findBestAux, if_neg hu, if_neg hd] at h
            obtain ⟨h1, h2⟩ := ih _ b d h
            refine ⟨by simp, fun q hq hQ => ?_⟩
            rcases List.mem_cons.mp hq with hq | hq
            · subst hq
              exact absurd hQ.2 hd
            · exact h2 q hq hQ
      · by_cases hu : p.1 ∈ used
        · rw [findBestAux, if_pos hu] at h
          obtain ⟨h1, h2⟩ := ih _ b d h
          refine ⟨fun e he => h1 e he, fun q hq hQ => ?_⟩
          rcases List.mem_cons.mp hq with hq | hq
          · subst hq
            exact absurd hu hQ.1
          · exact h2 q hq hQ
        · by_cases hc : distSq c p.2 < d0 ∧ distSq c p.2 < (maxD : Int) ^ 2
          · rw [findBestAux, if_neg hu, if_pos hc] at h
            obtain ⟨h1, h2⟩ := ih _ b d h
            have hdp : d ≤ distSq c p.2 := h1 (p.1, distSq c p.2) rfl
            refine ⟨fun e he => ?_, fun q hq hQ => ?_⟩
            · cases he
              exact le_of_lt (lt_of_le_of_lt hdp hc.1)
            · rcases List.mem_cons.mp hq with hq | hq
              · subst hq
                exact hdp
              · exact h2 q hq hQ
          · rw [findBestAux, if_neg hu, if_neg hc] at h
            obtain ⟨h1, h2⟩ := ih _ b d h
            have hd0 : d ≤ d0 := h1 (b0, d0) rfl
            refine ⟨fun e he => ?_, fun q hq hQ => ?_⟩
            · cases he
              exact hd0
            · rcases List.mem_cons.mp hq with hq | hq
              · subst hq
                have hnlt : ¬ distSq c q.2 < d0 := fun hlt => hc ⟨hlt, hQ.2⟩
                exact le_trans hd0 (not_lt.mp hnlt)
              · exact h2 q hq hQ

theorem fbAux_first (used : List Nat) (c : Int × Int) (maxD : Nat)
    (l : List (Nat × Int × Int)) :
    ∀ best b d, findBestAux used c maxD l best = some (b, d) →
      best = some (b, d) ∨
      ∃ (i : Nat) (q : Nat × Int × Int), l[i]? = some q ∧ q.1 = b ∧ distSq c q.2 = d ∧ Qual used c maxD q ∧
        (∀ j, j < i → ∀ q2, l[j]? = some q2 → Qual used c maxD q2 →
          d < distSq c q2.2) ∧
        (∀ e, best = some e → d < e.2) := by
  induction l with
  | nil =>
      intro best b d h
      rw [findBestAux] at h
      exact Or.inl h
  | cons p rest ih =>
      intro best b d h
      have liftR :
          (∃ (i : Nat) (q : Nat × Int × Int), rest[i]? = some q ∧ q.1 = b ∧ distSq c q.2 = d ∧
            Qual used c maxD q ∧
            (∀ j, j < i → ∀ q2, rest[j]? = some q2 → Qual used c maxD q2 →
              d < distSq c q2.2)) →
          (Qual used c maxD p → d < distSq c p.2) →
          ∃ (i : Nat) (q : Nat × Int × Int), (p :: rest)[i]? = some q ∧ q.1 = b ∧ distSq c q.2 = d ∧
            Qual used c maxD q ∧
            (∀ j, j < i → ∀ q2, (p :: rest)[j]? = some q2 →
              Qual used c maxD q2 → d < distSq c q2.2) := by
        rintro ⟨i, q, hi, hqb, hqd, hqQ, hfirst⟩ hp
        refine ⟨i + 1, q, by simpa using hi, hqb, hqd, hqQ, ?_⟩
        intro j hj q2 hq2 hQ2
        match j with
        | 0 =>
            rw [List.getElem?_cons_zero] at hq2
            cases hq2
            exact hp hQ2
        | Nat.succ j0 =>
            rw [List.getElem?_cons_succ] at hq2
            exact hfirst j0 (Nat.lt_of_succ_lt_succ hj) q2 hq2 hQ2
      rcases best with _ | ⟨b0, d0⟩
      · by_cases hu : p.1 ∈ used
        · rw [findBestAux, if_pos hu] at h
          rcases ih none b d h with hL | ⟨i, q, hi, hqb, hqd, hqQ, hfirst, hbc⟩
          · exact absurd hL (by simp)
          · refine Or.inr ?_
            obtain ⟨i2, q2, hrest⟩ :=
              liftR ⟨i, q, hi, hqb, hqd, hqQ, hfirst⟩
                (fun hQ => absurd hu hQ.1)
            exact ⟨i2, q2, hrest.1, hrest.2.1, hrest.2.2.1, hrest.2.2.2.1,
              hrest.2.2.2.2, by simp⟩
        · by_cases hd : distSq c p.2 < (maxD : Int) ^ 2
          · rw [findBestAux, if_neg hu, if_pos hd] at h
            rcases ih _ b d h with hL | ⟨i, q, hi, hqb, hqd, hqQ, hfirst, hbc⟩
            · injection hL with hL
              refine Or.inr ⟨0, p, List.getElem?_cons_zero, ?_, ?_, ⟨hu, hd⟩,
                ?_, by simp⟩
              · exact congrArg Prod.fst hL
              · exact congrArg Prod.snd hL
              · intro j hj
                exact absurd hj (Nat.not_lt_zero j)
            · have hp : Qual used c maxD p → d < distSq c p.2 :=
                fun _ => hbc (p.1, distSq c p.2) rfl
              refine Or.inr ?_
              obtain ⟨i2, q2, hrest⟩ :=
                liftR ⟨i, q, hi, hqb, hqd, hqQ, hfirst⟩ hp
              exact ⟨i2, q2, hrest.1, hrest.2.1, hrest.2.2.1, hrest.2.2.2.1,
                hrest.2.2.2.2, by simp⟩
          · rw [findBestAux, if_neg hu, if_neg hd] at h
            rcases ih none b d h with hL | ⟨i, q, hi, hqb, hqd, hqQ, hfirst, hbc⟩
            · exact absurd hL (by simp)
            · refine Or.inr ?_
              obtain ⟨i2, q2, hrest⟩ :=
                liftR ⟨i, q, hi, hqb, hqd, hqQ, hfirst⟩
                  (fun hQ => absurd hQ.2 hd)
              exact ⟨i2, q2, hrest.1, hrest.2.1, hrest.2.2.1, hrest.2.2.2.1,
                hrest.2.2.2.2, by simp⟩
      · by_cases hu : p.1 ∈ used
        · rw [findBestAux, if_pos hu] at h
          rcases ih _ b d h with hL | ⟨i, q, hi, hqb, hqd, hqQ, hfirst, hbc⟩
          · exact Or.inl hL
          · refine Or.inr ?_
            obtain ⟨i2, q2, hrest⟩ :=
              liftR ⟨i, q, hi, hqb, hqd, hqQ, hfirst⟩
                (fun hQ => absurd hu hQ.1)
            exact ⟨i2, q2, hrest.1, hrest.2.1, hrest.2.2.1, hrest.2.2.2.1,
              hrest.2.2.2.2, hbc⟩
        · by_cases hc : distSq c p.2 < d0 ∧ distSq c p.2 < (maxD : Int) ^ 2
          · rw [findBestAux, if_neg hu, if_pos hc] at h
            rcases ih _ b d h with hL | ⟨i, q, hi, hqb, hqd, hqQ, hfirst, hbc⟩
            · injection hL with hL
              refine Or.inr ⟨0, p, List.getElem?_cons_zero, ?_, ?_,
                ⟨hu, hc.2⟩, ?_, ?_⟩
              · exact congrArg Prod.fst hL
              · exact congrArg Prod.snd hL
              · intro j hj
                exact absurd hj (Nat.not_lt_zero j)
              · intro e he
                cases he
                have : d = distSq c p.2 := (congrArg Prod.snd hL).symm
                rw [this]
                exact hc.1
            · have hdp : d < distSq c p.2 := hbc (p.1, distSq c p.2) rfl
              refine Or.inr ?_
              obtain ⟨i2, q2, hrest⟩ :=
                liftR ⟨i, q, hi, hqb, hqd, hqQ, hfirst⟩ (fun _ => hdp)
              refine ⟨i2, q2, hrest.1, hrest.2.1, hrest.2.2.1, hrest.2.2.2.1,
                hrest.2.2.2.2, ?_⟩
              intro e he
              cases he
              exact lt_trans hdp hc.1
          · rw [findBestAux, if_neg hu, if_neg hc] at h
            rcases ih _ b d h with hL | ⟨i, q, hi, hqb, hqd, hqQ, hfirst, hbc⟩
            · exact Or.inl hL
            · have hdd0 : d < d0 := hbc (b0, d0) rfl
              have hdp : Qual used c maxD p → d < distSq c p.2 := by
                intro hQ
                have hge : ¬ distSq c p.2 < d0 := fun hlt => hc ⟨hlt, hQ.2⟩
                exact lt_of_lt_of_le hdd0 (not_lt.mp hge)
              obtain ⟨i2, q2, hrest⟩ :=
                liftR ⟨i, q, hi, hqb, hqd, hqQ, hfirst⟩ hdp
              exact Or.inr ⟨i2, q2, hrest.1, hrest.2.1, hrest.2.2.1,
                hrest.2.2.2.1, hrest.2.2.2.2,
                fun e he => by cases he; exact hdd0⟩

/-- With nothing claimed yet, `findBest` returns an object id exactly when some
object qualifies, and then the returned id is a qualifying minimizer of the
distance that occurs strictly earlier in the iteration order than every other
minimizer. -/
theorem findBest_some_spec {used : List Nat} {c : Int × Int} {maxD : Nat}
    {objects : List (Nat × Int × Int)} {b : Nat}
    (h : findBest used c maxD objects = some b) :
    ∃ (i : Nat) (q : Nat × Int × Int), objects[i]? = some q ∧ q.1 = b ∧ Qual used c maxD q ∧
      (∀ p ∈ objects, Qual used c maxD p → distSq c q.2 ≤ distSq c p.2) ∧
      (∀ j, j < i → ∀ q2, objects[j]? = some q2 → Qual used c maxD q2 →
        distSq c q.2 < distSq c q2.2) := by
  unfold findBest at h
  cases hr : findBestAux used c maxD objects none with
  | none => rw [hr] at h; simp at h
  | some e =>
      rw [hr] at h
      obtain ⟨bb, d⟩ := e
      have hb : bb = b := by simpa using h
      subst hb
      rcases fbAux_first used c maxD objects none bb d hr with hL | hR
      · exact absurd hL (by simp)
      · obtain ⟨i, q, hi, hqb, hqd, hqQ, hfirst, -⟩ := hR
        obtain ⟨-, hle⟩ := fbAux_le used c maxD objects none bb d hr
        exact ⟨i, q, hi, hqb, hqQ, fun p hp hQ => hqd ▸ hle p hp hQ,
          fun j hj q2 hq2 hQ2 => hqd ▸ hfirst j hj q2 hq2 hQ2⟩

/-- `findBest` returns nothing exactly when no object qualifies. -/
theorem findBest_eq_none_iff {used : List Nat} {c : Int × Int} {maxD : Nat}
    {objects : List (Nat × Int × Int)} :
    findBest used c maxD objects = none ↔ ∀ p ∈ objects, ¬ Qual used c maxD p := by
  unfold findBest
  constructor
  · intro h
    have hn : findBestAux used c maxD objects none = none := by
      cases hfb : findBestAux used c maxD objects none with
      | none => rfl
      | some e => rw [hfb] at h; simp at h
    exact ((fbAux_eq_none_iff used c maxD objects none).mp hn).2
  · intro h
    rw [(fbAux_eq_none_iff used c maxD objects none).mpr ⟨rfl, h⟩]
    rfl

/-- A successful match is an unclaimed existing object id. -/
theorem findBest_mem {used : List Nat} {c : Int × Int} {maxD : Nat}
    {objects : List (Nat × Int × Int)} {b : Nat}
    (h : findBest used c maxD objects = some b) :
    b ∈ objects.map Prod.fst ∧ b ∉ used := by
  obtain ⟨i, q, hi, hqb, hqQ, -, -⟩ := findBest_some_spec h
  exact ⟨hqb ▸ List.mem_map_of_mem Prod.fst (List.getElem?_mem hi),
    hqb ▸ hqQ.1⟩

/-! ### Tracker invariant -/

theorem trackerInit_Inv (maxD mx : Nat) : (trackerInit maxD mx).Inv := by
  refine ⟨rfl, List.nodup_nil, ?_, ?_⟩ <;> intro p hp <;> simp [trackerInit] at hp

theorem matchStep_ok {maxD : Nat} {objects : List (Nat × Int × Int)}
    {D0 : List (Nat × Nat)} {n0 : Nat}
    (hOBJ : ∀ p ∈ objects, p.1 < n0) {acc : MatchAcc} (c : Int × Int)
    (h : AccOk objects D0 n0 acc) :
    AccOk objects D0 n0 (matchStep maxD objects acc c) := by
  obtain ⟨hkeys, hn0, hused, hnd, hget0, hunch, hmem, hfilter⟩ := h
  have hkeymem : ∀ k, k ∈ acc.new_objects.map Prod.fst → k < acc.next_id := by
    intro k hk
    rcases hmem k hk with hk2 | hk2
    · obtain ⟨p, hp, hpk⟩ := List.mem_map.mp hk2
      exact lt_of_lt_of_le (hpk ▸ hOBJ p hp) hn0
    · exact hk2.2
  cases hfb : findBest acc.used c maxD objects with
  | none =>
      have hfresh : acc.next_id ∉ acc.disappeared.map Prod.fst := by
        rw [hkeys]
        simp
      have hfreshnew : acc.next_id ∉ acc.new_objects.map Prod.fst :=
        fun hk => lt_irrefl _ (hkeymem _ hk)
      simp only [AccOk, matchStep, hfb]
      refine ⟨?_, le_trans hn0 (Nat.le_succ _), ?_, ?_, ?_, ?_, ?_, ?_⟩
      · rw [keys_alSet_of_not_mem _ hfresh, hkeys, ← List.range_succ]
      · rw [List.map_append, hused]
        rfl
      · rw [List.map_append]
        rw [List.nodup_append]
        exact ⟨hnd, List.nodup_singleton _, by
          intro k hk hk2
          simp only [List.map_cons, List.map_nil, List.mem_singleton] at hk2
          exact hfreshnew (hk2 ▸ hk)⟩
      · intro k hk
        rw [List.map_append] at hk
        rcases List.mem_append.mp hk with hk | hk
        · have hne : k ≠ acc.next_id := fun he => hfreshnew (he ▸ hk)
          rw [alGet?_alSet_ne _ _ hne]
          exact hget0 k hk
        · simp only [List.map_cons, List.map_nil, List.mem_singleton] at hk
          subst hk
          exact alGet?_alSet_self _ _ _
      · intro k hk
        rw [List.map_append] at hk
        simp only [List.mem_append, List.map_cons, List.map_nil,
          List.mem_singleton, not_or] at hk
        rw [alGet?_alSet_ne _ _ hk.2]
        exact hunch k hk.1
      · intro k hk
        rw [List.map_append] at hk
        rcases List.mem_append.mp hk with hk | hk
        · rcases hmem k hk with hk2 | hk2
          · exact Or.inl hk2
          · exact Or.inr ⟨hk2.1, Nat.lt_succ_of_lt hk2.2⟩
        · simp only [List.map_cons, List.map_nil, List.mem_singleton] at hk
          subst hk
          exact Or.inr ⟨hn0, Nat.lt_succ_self _⟩
      · rw [List.filter_append, hfilter]
        have hkeep : (n0 : Int) ≤ (acc.next_id : Int) := Int.ofNat_le.mpr hn0
        simp only [List.filter_cons, List.filter_nil, decide_eq_true_eq,
          hkeep, if_pos]
        have hsub : acc.next_id + 1 - n0 = (acc.next_id - n0) + 1 :=
          Nat.succ_sub hn0
        rw [hsub, List.range'_concat, List.map_append]
        simp [Nat.add_sub_cancel' hn0]
  | some bid =>
      obtain ⟨hbidmem, hbidused⟩ := findBest_mem hfb
      have hbidn0 : bid < n0 := by
        obtain ⟨p, hp, hpk⟩ := List.mem_map.mp hbidmem
        exact hpk ▸ hOBJ p hp
      have hbidkeys : bid ∈ acc.disappeared.map Prod.fst := by
        rw [hkeys, List.mem_range]
        exact lt_of_lt_of_le hbidn0 hn0
      have hbidnew : bid ∉ acc.new_objects.map Prod.fst := hused ▸ hbidused
      simp only [AccOk, matchStep, hfb]
      refine ⟨?_, hn0, ?_, ?_, ?_, ?_, ?_, ?_⟩
      · rw [keys_alSet_of_mem _ hbidkeys, hkeys]
      · rw [List.map_append, hused]
        rfl
      · rw [List.map_append]
        rw [List.nodup_append]
        exact ⟨hnd, List.nodup_singleton _, by
          intro k hk hk2
          simp only [List.map_cons, List.map_nil, List.mem_singleton] at hk2
          exact hbidnew (hk2 ▸ hk)⟩
      · intro k hk
        rw [List.map_append] at hk
        rcases List.mem_append.mp hk with hk | hk
        · have hne : k ≠ bid := fun he => hbidnew (he ▸ hk)
          rw [alGet?_alSet_ne _ _ hne]
          exact hget0 k hk
        · simp only [List.map_cons, List.map_nil, List.mem_singleton] at hk
          subst hk
          exact alGet?_alSet_self _ _ _
      · intro k hk
        rw [List.map_append] at hk
        simp only [List.mem_append, List.map_cons, List.map_nil,
          List.mem_singleton, not_or] at hk
        rw [alGet?_alSet_ne _ _ hk.2]
        exact hunch k hk.1
      · intro k hk
        rw [List.map_append] at hk
        rcases List.mem_append.mp hk with hk | hk
        · exact hmem k hk
        · simp only [List.map_cons, List.map_nil, List.mem_singleton] at hk
          subst hk
          exact Or.inl hbidmem
      · rw [List.filter_append, hfilter]
        have hdrop : ¬ (n0 : Int) ≤ (bid : Int) :=
          fun hle => absurd (Int.ofNat_le.mp hle) (Nat.not_le_of_lt hbidn0)
        simp [hdrop]

theorem matchPhase_ok {maxD : Nat} {objects : List (Nat × Int × Int)}
    {D0 : List (Nat × Nat)} {n0 : Nat}
    (hOBJ : ∀ p ∈ objects, p.1 < n0) (dets : List (Int × Int)) :
    ∀ acc, AccOk objects D0 n0 acc →
      AccOk objects D0 n0 (matchPhase maxD objects dets acc) := by
  induction dets with
  | nil => intro acc h; exact h
  | cons c rest ih =>
      intro acc h
      exact ih _ (matchStep_ok hOBJ c h)

theorem matchPhase_next_le {maxD : Nat} {objects : List (Nat × Int × Int)}
    (dets : List (Int × Int)) :
    ∀ acc, acc.next_id ≤ (matchPhase maxD objects dets acc).next_id := by
  induction dets with
  | nil => intro acc; exact le_refl _
  | cons c rest ih =>
      intro acc
      refine le_trans ?_ (ih (matchStep maxD objects acc c))
      unfold matchStep
      cases findBest acc.used c maxD objects with
      | none => exact Nat.le_succ _
      | some bid => exact le_refl _

/-- Full characterization of the disappearance pass: the `disappeared` keys are
untouched, objects already matched (or ids outside the iterated list) keep their
counts, every unmatched object key is bumped by one, and exactly the unmatched
objects whose bumped count stays at most `mx` are appended, in order. -/
theorem agePass_spec (mx : Nat) (objects : List (Nat × Int × Int)) :
    ∀ (no0 : List (Nat × Int × Int)) (dis0 : List (Nat × Nat)),
      (objects.map Prod.fst).Nodup →
      (∀ p ∈ objects, p.1 ∈ dis0.map Prod.fst) →
      (agePass mx objects (no0, dis0)).2.map Prod.fst = dis0.map Prod.fst ∧
      (∀ k, (k ∉ objects.map Prod.fst ∨ k ∈ no0.map Prod.fst) →
        alGet? (agePass mx objects (no0, dis0)).2 k = alGet? dis0 k) ∧
      (∀ p ∈ objects, p.1 ∉ no0.map Prod.fst →
        alGet? (agePass mx objects (no0, dis0)).2 p.1
          = some ((alGet? dis0 p.1).getD 0 + 1)) ∧
      (agePass mx objects (no0, dis0)).1
        = no0 ++ objects.filter (fun q =>
            decide (q.1 ∉ no0.map Prod.fst ∧ (alGet? dis0 q.1).getD 0 + 1 ≤ mx)) := by
  induction objects with
  | nil =>
      intro no0 dis0 hnd hsub
      refine ⟨rfl, fun k _ => rfl, by simp, by simp [agePass]⟩
  | cons p rest ih =>
      intro no0 dis0 hnd hsub
      have hndc := List.nodup_cons.mp (List.map_cons Prod.fst p rest ▸ hnd)
      have hp_rest : p.1 ∉ rest.map Prod.fst := hndc.1
      have hnd_rest : (rest.map Prod.fst).Nodup := hndc.2
      have hpdis : p.1 ∈ dis0.map Prod.fst := hsub p (List.mem_cons_self p rest)
      have hstep : agePass mx (p :: rest) (no0, dis0)
          = if p.1 ∈ no0.map Prod.fst then agePass mx rest (no0, dis0)
            else if (alGet? dis0 p.1).getD 0 + 1 ≤ mx then
              agePass mx rest
                (no0 ++ [p], alSet dis0 p.1 ((alGet? dis0 p.1).getD 0 + 1))
            else
              agePass mx rest (no0, alSet dis0 p.1 ((alGet? dis0 p.1).getD 0 + 1)) :=
        rfl
      by_cases hp : p.1 ∈ no0.map Prod.fst
      · rw [hstep, if_pos hp]
        obtain ⟨ih1, ih2, ih3, ih4⟩ :=
          ih no0 dis0 hnd_rest (fun q hq => hsub q (List.mem_cons_of_mem p hq))
        refine ⟨ih1, ?_, ?_, ?_⟩
        · intro k hk
          refine ih2 k ?_
          rcases hk with hk | hk
          · exact Or.inl fun hr =>
              hk (List.map_cons Prod.fst p rest ▸ List.mem_cons_of_mem _ hr)
          · exact Or.inr hk
        · intro q hq hqno
          rcases List.mem_cons.mp hq with hq | hq
          · rw [hq] at hqno
            exact absurd hp hqno
          · exact ih3 q hq hqno
        · rw [ih4, List.filter_cons]
          simp [hp]
      · have hkeysSet : (alSet dis0 p.1 ((alGet? dis0 p.1).getD 0 + 1)).map Prod.fst
            = dis0.map Prod.fst := keys_alSet_of_mem _ hpdis
        have hsub2 : ∀ q ∈ rest,
            q.1 ∈ (alSet dis0 p.1 ((alGet? dis0 p.1).getD 0 + 1)).map Prod.fst := by
          intro q hq
          rw [hkeysSet]
          exact hsub q (List.mem_cons_of_mem p hq)
        have hqne : ∀ q ∈ rest, q.1 ≠ p.1 := by
          intro q hq he
          exact hp_rest (he ▸ List.mem_map_of_mem Prod.fst hq)
        by_cases hd : (alGet? dis0 p.1).getD 0 + 1 ≤ mx
        · rw [hstep, if_neg hp, if_pos hd]
          obtain ⟨ih1, ih2, ih3, ih4⟩ :=
            ih (no0 ++ [p]) (alSet dis0 p.1 ((alGet? dis0 p.1).getD 0 + 1))
              hnd_rest hsub2
          have hkeysNo : (no0 ++ [p]).map Prod.fst
              = no0.map Prod.fst ++ [p.1] := by
            rw [List.map_append]
            rfl
          refine ⟨ih1.trans hkeysSet, ?_, ?_, ?_⟩
          · intro k hk
            have hkne : k ≠ p.1 := by
              rcases hk with hk | hk
              · exact fun he => hk (he ▸ List.mem_map_of_mem Prod.fst
                  (List.mem_cons_self p rest))
              · exact fun he => hp (he ▸ hk)
            have hk2 : k ∉ rest.map Prod.fst ∨ k ∈ (no0 ++ [p]).map Prod.fst := by
              rcases hk with hk | hk
              · exact Or.inl fun hr =>
                  hk (List.map_cons Prod.fst p rest ▸ List.mem_cons_of_mem _ hr)
              · exact Or.inr (by rw [hkeysNo]; exact List.mem_append_left _ hk)
            rw [ih2 k hk2, alGet?_alSet_ne _ _ hkne]
          · intro q hq hqno
            rcases List.mem_cons.mp hq with hq | hq
            · rw [hq]
              have hqin : p.1 ∈ (no0 ++ [p]).map Prod.fst := by
                rw [hkeysNo]
                exact List.mem_append_right _ (List.mem_singleton.mpr rfl)
              rw [ih2 p.1 (Or.inr hqin), alGet?_alSet_self]
            · have hne := hqne q hq
              have hqno2 : q.1 ∉ (no0 ++ [p]).map Prod.fst := by
                rw [hkeysNo]
                intro hin
                rcases List.mem_append.mp hin with hin | hin
                · exact hqno hin
                · exact hne (List.mem_singleton.mp hin)
              rw [ih3 q hq hqno2, alGet?_alSet_ne _ _ hne]
          · rw [ih4, List.filter_cons]
            have hcond : (decide (p.1 ∉ no0.map Prod.fst ∧
                (alGet? dis0 p.1).getD 0 + 1 ≤ mx)) = true := by
              simp [hp, hd]
            rw [hcond, if_pos rfl]
            conv_rhs => rw [List.append_cons]
            congr 1
            refine List.filter_congr ?_
            intro q hq
            have hne := hqne q hq
            rw [alGet?_alSet_ne _ _ hne]
            have h1 : (q.1 ∉ (no0 ++ [p]).map Prod.fst)
                ↔ (q.1 ∉ no0.map Prod.fst) := by
              rw [hkeysNo]
              simp [hne]
            exact decide_eq_decide.mpr (and_congr h1 Iff.rfl)
        · rw [hstep, if_neg hp, if_neg hd]
          obtain ⟨ih1, ih2, ih3, ih4⟩ :=
            ih no0 (alSet dis0 p.1 ((alGet? dis0 p.1).getD 0 + 1)) hnd_rest hsub2
          refine ⟨ih1.trans hkeysSet, ?_, ?_, ?_⟩
          · intro k hk
            have hkne : k ≠ p.1 := by
              rcases hk with hk | hk
              · exact fun he => hk (he ▸ List.mem_map_of_mem Prod.fst
                  (List.mem_cons_self p rest))
              · exact fun he => hp (he ▸ hk)
            have hk2 : k ∉ rest.map Prod.fst ∨ k ∈ no0.map Prod.fst := by
              rcases hk with hk | hk
              · exact Or.inl fun hr =>
                  hk (List.map_cons Prod.fst p rest ▸ List.mem_cons_of_mem _ hr)
              · exact Or.inr hk
            rw [ih2 k hk2, alGet?_alSet_ne _ _ hkne]
          · intro q hq hqno
            rcases List.mem_cons.mp hq with hq | hq
            · rw [hq]
              rw [ih2 p.1 (Or.inl hp_rest), alGet?_alSet_self]
            · have hne := hqne q hq
              rw [ih3 q hq hqno, alGet?_alSet_ne _ _ hne]
          · rw [ih4, List.filter_cons]
            have hcond : (decide (p.1 ∉ no0.map Prod.fst ∧
                (alGet? dis0 p.1).getD 0 + 1 ≤ mx)) = false := by
              simp only [decide_eq_false_iff_not]
              exact fun hc => hd hc.2
            rw [hcond]
            simp only [Bool.false_eq_true, if_false]
            congr 1
            refine List.filter_congr ?_
            intro q hq
            have hne := hqne q hq
            rw [alGet?_alSet_ne _ _ hne]

theorem alSet_of_not_mem {α : Type} {l : List (Nat × α)} {k : Nat} (v : α)
    (hk : k ∉ l.map Prod.fst) : alSet l k v = l ++ [(k, v)] := by
  induction l with
  | nil => rfl
  | cons p rest ih =>
      simp only [List.map_cons, List.mem_cons] at hk
      push_neg at hk
      rw [alSet, if_neg (fun h => hk.1 h.symm), ih hk.2]
      rfl

theorem registerAll_spec (dets : List (Int × Int)) :
    ∀ (t : Tracker) (asg : List Int), t.Inv →
      (registerAll dets t asg).1.Inv ∧
      t.next_id ≤ (registerAll dets t asg).1.next_id ∧
      (registerAll dets t asg).1.max_distance = t.max_distance ∧
      (registerAll dets t asg).1.max_disappeared = t.max_disappeared ∧
      (registerAll dets t asg).2
        = asg ++ (List.range' t.next_id
            ((registerAll dets t asg).1.next_id - t.next_id)).map Int.ofNat := by
  induction dets with
  | nil =>
      intro t asg h
      exact ⟨h, le_refl _, rfl, rfl, by simp [registerAll]⟩
  | cons c rest ih =>
      intro t asg h
      obtain ⟨hkeys, hndobj, hlt, hval⟩ := h
      have hfreshdis : t.next_id ∉ t.disappeared.map Prod.fst := by
        rw [hkeys]
        simp
      have hfreshobj : t.next_id ∉ t.objects.map Prod.fst := by
        intro hmem
        obtain ⟨p, hp, hpk⟩ := List.mem_map.mp hmem
        exact lt_irrefl _ (hpk ▸ hlt p hp)
      have hsetapp := alSet_of_not_mem 0 hfreshdis
      have hInv2 : Tracker.Inv
          { t with objects := t.objects ++ [(t.next_id, c)],
                   disappeared := alSet t.disappeared t.next_id 0,
                   next_id := t.next_id + 1 } := by
        refine ⟨?_, ?_, ?_, ?_⟩
        · show (alSet t.disappeared t.next_id 0).map Prod.fst
            = List.range (t.next_id + 1)
          rw [keys_alSet_of_not_mem _ hfreshdis, hkeys, List.range_succ]
        · show ((t.objects ++ [(t.next_id, c)]).map Prod.fst).Nodup
          rw [List.map_append, List.nodup_append]
          exact ⟨hndobj, List.nodup_singleton _, by
            intro k hk hk2
            simp only [List.map_cons, List.map_nil, List.mem_singleton] at hk2
            exact hfreshobj (hk2 ▸ hk)⟩
        · intro p hp
          rcases List.mem_append.mp hp with hp | hp
          · exact Nat.lt_succ_of_lt (hlt p hp)
          · simp only [List.mem_singleton] at hp
            subst hp
            exact Nat.lt_succ_self _
        · intro p hp
          rw [hsetapp] at hp
          have hobjkeys : ((t.objects ++ [(t.next_id, c)]).map Prod.fst)
              = t.objects.map Prod.fst ++ [t.next_id] := by
            rw [List.map_append]
            rfl
          rcases List.mem_append.mp hp with hp | hp
          · have hkne : p.1 ≠ t.next_id := by
              intro he
              have : p.1 ∈ t.disappeared.map Prod.fst :=
                List.mem_map_of_mem Prod.fst hp
              exact hfreshdis (he ▸ this)
            have hmemiff : p.1 ∈ (t.objects ++ [(t.next_id, c)]).map Prod.fst
                ↔ p.1 ∈ t.objects.map Prod.fst := by
              rw [hobjkeys]
              simp [hkne]
            constructor
            · intro hm
              exact (hval p hp).1 (hmemiff.mp hm)
            · intro hm
              exact (hval p hp).2 (fun hin => hm (hmemiff.mpr hin))
          · simp only [List.mem_singleton] at hp
            subst hp
            constructor
            · intro _
              exact Nat.zero_le _
            · intro hm
              exact absurd (by
                rw [hobjkeys]
                exact List.mem_append_right _ (List.mem_singleton.mpr rfl)) hm
      obtain ⟨ih1, ih2, ih3, ih4, ih5⟩ := ih _ (asg ++ [(t.next_id : Int)]) hInv2
      have hstep : registerAll (c :: rest) t asg
          = registerAll rest
              { t with objects := t.objects ++ [(t.next_id, c)],
                       disappeared := alSet t.disappeared t.next_id 0,
                       next_id := t.next_id + 1 }
              (asg ++ [(t.next_id : Int)]) := rfl
      rw [hstep]
      refine ⟨ih1, le_trans (Nat.le_succ _) ih2, ih3, ih4, ?_⟩
      rw [ih5]
      have hsub : (registerAll rest
          { t with objects := t.objects ++ [(t.next_id, c)],
                   disappeared := alSet t.disappeared t.next_id 0,
                   next_id := t.next_id + 1 }
          (asg ++ [(t.next_id : Int)])).1.next_id - t.next_id
          = ((registerAll rest
            { t with objects := t.objects ++ [(t.next_id, c)],
                     disappeared := alSet t.disappeared t.next_id 0,
                     next_id := t.next_id + 1 }
            (asg ++ [(t.next_id : Int)])).1.next_id - (t.next_id + 1)) + 1 := by
        have h21 : t.next_id + 1 ≤ (registerAll rest
            { t with objects := t.objects ++ [(t.next_id, c)],
                     disappeared := alSet t.disappeared t.next_id 0,
                     next_id := t.next_id + 1 }
            (asg ++ [(t.next_id : Int)])).1.next_id := ih2
        omega
      rw [hsub, List.range'_succ, List.map_cons, List.append_assoc]
      rfl

theorem assemble_inv (OBJ : List (Nat × Int × Int)) (D0 : List (Nat × Nat))
    (n0 mx : Nat)
    (hndobj : (OBJ.map Prod.fst).Nodup)
    (hlt : ∀ p ∈ OBJ, p.1 < n0)
    (hkeys : D0.map Prod.fst = List.range n0)
    (hval : ∀ p ∈ D0, (p.1 ∈ OBJ.map Prod.fst → p.2 ≤ mx) ∧
      (p.1 ∉ OBJ.map Prod.fst → p.2 = mx + 1))
    (acc : MatchAcc) (hAcc : AccOk OBJ D0 n0 acc) :
    (agePass mx OBJ (acc.new_objects, acc.disappeared)).2.map Prod.fst
      = List.range acc.next_id ∧
    ((agePass mx OBJ (acc.new_objects, acc.disappeared)).1.map Prod.fst).Nodup ∧
    (∀ p ∈ (agePass mx OBJ (acc.new_objects, acc.disappeared)).1,
      p.1 < acc.next_id) ∧
    (∀ p ∈ (agePass mx OBJ (acc.new_objects, acc.disappeared)).2,
      (p.1 ∈ (agePass mx OBJ (acc.new_objects, acc.disappeared)).1.map Prod.fst
        → p.2 ≤ mx) ∧
      (p.1 ∉ (agePass mx OBJ (acc.new_objects, acc.disappeared)).1.map Prod.fst
        → p.2 = mx + 1)) := by
  obtain ⟨a1, a2, a3, a4, a5, a6, a7, a8⟩ := hAcc
  have hsubO : ∀ p ∈ OBJ, p.1 ∈ acc.disappeared.map Prod.fst := by
    intro p hp
    rw [a1, List.mem_range]
    exact lt_of_lt_of_le (hlt p hp) a2
  obtain ⟨g1, g2, g3, g4⟩ :=
    agePass_spec mx OBJ acc.new_objects acc.disappeared hndobj hsubO
  have hfsub : ((OBJ.filter (fun q =>
      decide (q.1 ∉ acc.new_objects.map Prod.fst ∧
        (alGet? acc.disappeared q.1).getD 0 + 1 ≤ mx))).map Prod.fst).Sublist
      (OBJ.map Prod.fst) := (List.filter_sublist OBJ).map Prod.fst
  have hnewfresh : ∀ k ∈ acc.new_objects.map Prod.fst, k < acc.next_id := by
    intro k hk
    rcases a7 k hk with hk2 | hk2
    · obtain ⟨p, hp, hpk⟩ := List.mem_map.mp hk2
      exact lt_of_lt_of_le (hpk ▸ hlt p hp) a2
    · exact hk2.2
  refine ⟨g1.trans a1, ?_, ?_, ?_⟩
  · rw [g4, List.map_append, List.nodup_append]
    refine ⟨a4, hfsub.nodup hndobj, ?_⟩
    intro k hk hk2
    obtain ⟨q, hqf, hqk⟩ := List.mem_map.mp hk2
    obtain ⟨hqO, hcond⟩ := List.mem_filter.mp hqf
    rw [decide_eq_true_eq] at hcond
    exact hcond.1 (hqk ▸ hk)
  · intro p hp
    rw [g4] at hp
    rcases List.mem_append.mp hp with hp | hp
    · exact hnewfresh p.1 (List.mem_map_of_mem Prod.fst hp)
    · exact lt_of_lt_of_le (hlt p (List.mem_of_mem_filter hp)) a2
  · intro p hp
    have hndkeys : ((agePass mx OBJ (acc.new_objects, acc.disappeared)).2.map
        Prod.fst).Nodup := by
      rw [g1.trans a1]
      exact List.nodup_range _
    have hget : alGet? (agePass mx OBJ (acc.new_objects, acc.disappeared)).2 p.1
        = some p.2 := alGet?_of_mem hndkeys hp
    have hmemsplit : ∀ k, k ∈ (agePass mx OBJ
        (acc.new_objects, acc.disappeared)).1.map Prod.fst
        ↔ k ∈ acc.new_objects.map Prod.fst ∨
          k ∈ (OBJ.filter (fun q =>
            decide (q.1 ∉ acc.new_objects.map Prod.fst ∧
              (alGet? acc.disappeared q.1).getD 0 + 1 ≤ mx))).map Prod.fst := by
      intro k
      rw [g4, List.map_append, List.mem_append]
    by_cases hknew : p.1 ∈ acc.new_objects.map Prod.fst
    · have hunch : alGet? (agePass mx OBJ (acc.new_objects, acc.disappeared)).2 p.1
          = alGet? acc.disappeared p.1 := g2 p.1 (Or.inr hknew)
      have hv0 : p.2 = 0 :=
        Option.some.inj (hget.symm.trans (hunch.trans (a5 p.1 hknew)))
      have hmem : p.1 ∈ (agePass mx OBJ
          (acc.new_objects, acc.disappeared)).1.map Prod.fst :=
        (hmemsplit p.1).mpr (Or.inl hknew)
      exact ⟨fun _ => hv0 ▸ Nat.zero_le _, fun hnm => absurd hmem hnm⟩
    · by_cases hkobj : p.1 ∈ OBJ.map Prod.fst
      · obtain ⟨q, hqO, hqk⟩ := List.mem_map.mp hkobj
        have hqnew : q.1 ∉ acc.new_objects.map Prod.fst := hqk ▸ hknew
        have h3 := g3 q hqO hqnew
        have h6 : alGet? acc.disappeared q.1 = alGet? D0 q.1 := a6 q.1 hqnew
        have hq1n0 : q.1 < n0 := hlt q hqO
        have hkD0 : q.1 ∈ D0.map Prod.fst := by
          rw [hkeys]
          exact List.mem_range.mpr hq1n0
        obtain ⟨w, hw⟩ := alGet?_isSome_iff.mpr hkD0
        have hwmem : (q.1, w) ∈ D0 := mem_of_alGet? hw
        have hwle : w ≤ mx := (hval _ hwmem).1 (hqk ▸ hkobj)
        have hvw : p.2 = w + 1 := by
          have hgq : alGet? (agePass mx OBJ
              (acc.new_objects, acc.disappeared)).2 p.1 = some (w + 1) := by
            rw [← hqk, h3, h6, hw]
            rfl
          exact Option.some.inj (hget.symm.trans hgq)
        have hdisval : (alGet? acc.disappeared q.1).getD 0 + 1 = w + 1 := by
          rw [h6, hw]
          rfl
        have hmemiff : p.1 ∈ (agePass mx OBJ
            (acc.new_objects, acc.disappeared)).1.map Prod.fst ↔ w + 1 ≤ mx := by
          rw [hmemsplit p.1]
          constructor
          · rintro (hm | hm)
            · exact absurd hm hknew
            · obtain ⟨q2, hq2f, hq2k⟩ := List.mem_map.mp hm
              obtain ⟨hq2O, hcond⟩ := List.mem_filter.mp hq2f
              rw [decide_eq_true_eq] at hcond
              have hq2eq : q2.1 = q.1 := hq2k.trans hqk.symm
              rw [hq2eq, hdisval] at hcond
              exact hcond.2
          · intro hle
            refine Or.inr ?_
            have hqfmem : q ∈ OBJ.filter (fun q2 =>
                decide (q2.1 ∉ acc.new_objects.map Prod.fst ∧
                  (alGet? acc.disappeared q2.1).getD 0 + 1 ≤ mx)) := by
              refine List.mem_filter.mpr ⟨hqO, ?_⟩
              rw [decide_eq_true_eq]
              exact ⟨hqnew, hdisval ▸ hle⟩
            exact hqk ▸ List.mem_map_of_mem Prod.fst hqfmem
        constructor
        · intro hm
          rw [hvw]
          exact hmemiff.mp hm
        · intro hnm
          have hgt := mt hmemiff.mpr hnm
          rw [hvw]
          omega
      · have h2 : alGet? (agePass mx OBJ (acc.new_objects, acc.disappeared)).2 p.1
            = alGet? acc.disappeared p.1 := g2 p.1 (Or.inl hkobj)
        have h6 : alGet? acc.disappeared p.1 = alGet? D0 p.1 := a6 p.1 hknew
        have hD0 : alGet? D0 p.1 = some p.2 := (h6.symm.trans (h2.symm.trans hget))
        have hpD0 : (p.1, p.2) ∈ D0 := mem_of_alGet? hD0
        have hv := (hval _ hpD0).2 hkobj
        have hnmem : p.1 ∉ (agePass mx OBJ
            (acc.new_objects, acc.disappeared)).1.map Prod.fst := by
          rw [hmemsplit p.1]
          rintro (hm | hm)
          · exact hknew hm
          · obtain ⟨q2, hq2f, hq2k⟩ := List.mem_map.mp hm
            exact hkobj (hq2k ▸ List.mem_map_of_mem Prod.fst
              (List.mem_of_mem_filter hq2f))
        exact ⟨fun hm => absurd hm hnmem, fun _ => hv⟩

theorem update_eq_pos (t : Tracker) (dets : List (Int × Int))
    (h : t.objects.length = 0) : t.update dets = registerAll dets t [] := by
  rw [Tracker.update, if_pos h]

theorem update_eq_neg (t : Tracker) (dets : List (Int × Int))
    (h : ¬ t.objects.length = 0) :
    t.update dets
      = ({ t with
            objects := (agePass t.max_disappeared t.objects
              ((matchPhase t.max_distance t.objects dets
                ⟨[], [], t.disappeared, t.next_id, []⟩).new_objects,
               (matchPhase t.max_distance t.objects dets
                ⟨[], [], t.disappeared, t.next_id, []⟩).disappeared)).1,
            disappeared := (agePass t.max_disappeared t.objects
              ((matchPhase t.max_distance t.objects dets
                ⟨[], [], t.disappeared, t.next_id, []⟩).new_objects,
               (matchPhase t.max_distance t.objects dets
                ⟨[], [], t.disappeared, t.next_id, []⟩).disappeared)).2,
            next_id := (matchPhase t.max_distance t.objects dets
              ⟨[], [], t.disappeared, t.next_id, []⟩).next_id },
         (matchPhase t.max_distance t.objects dets
           ⟨[], [], t.disappeared, t.next_id, []⟩).assignments) := by
  rw [Tracker.update, if_neg h]

theorem acc0_ok {t : Tracker} (h : t.Inv) :
    AccOk t.objects t.disappeared t.next_id
      ⟨[], [], t.disappeared, t.next_id, []⟩ := by
  refine ⟨h.1, le_refl _, rfl, List.nodup_nil, ?_, fun k _ => rfl, ?_, ?_⟩
  · intro k hk
    simp at hk
  · intro k hk
    simp at hk
  · simp

/-- Main specification of `CentroidTracker.update` on invariant-satisfying
states: the invariant is preserved, `next_id` only grows, the thresholds are
untouched, and the freshly allocated ids in the assignment list are exactly
`next_id, next_id + 1, ...` in order. -/
theorem update_spec {t : Tracker} (dets : List (Int × Int)) (h : t.Inv) :
    (t.update dets).1.Inv ∧
    t.next_id ≤ (t.update dets).1.next_id ∧
    (t.update dets).1.max_distance = t.max_distance ∧
    (t.update dets).1.max_disappeared = t.max_disappeared ∧
    (t.update dets).2.filter (fun a => (t.next_id : Int) ≤ a)
      = (List.range' t.next_id
          ((t.update dets).1.next_id - t.next_id)).map Int.ofNat := by
  by_cases hlen : t.objects.length = 0
  · rw [update_eq_pos t dets hlen]
    obtain ⟨r1, r2, r3, r4, r5⟩ := registerAll_spec dets t [] h
    refine ⟨r1, r2, r3, r4, ?_⟩
    rw [r5, List.nil_append]
    have hall : ∀ a ∈ (List.range' t.next_id
        ((registerAll dets t []).1.next_id - t.next_id)).map Int.ofNat,
        (fun a => decide ((t.next_id : Int) ≤ a)) a = true := by
      intro a ha
      obtain ⟨m, hm, hma⟩ := List.mem_map.mp ha
      obtain ⟨i, hi, hmi⟩ := List.mem_range'.mp hm
      subst hma
      rw [decide_eq_true_eq]
      exact Int.ofNat_le.mpr (by omega)
    rw [List.filter_eq_self.mpr hall]
  · rw [update_eq_neg t dets hlen]
    obtain ⟨hkeys, hndobj, hlt, hval⟩ := h
    have hAcc := @matchPhase_ok t.max_distance t.objects t.disappeared
      t.next_id hlt dets _ (acc0_ok ⟨hkeys, hndobj, hlt, hval⟩)
    obtain ⟨q1, q2, q3, q4⟩ := assemble_inv t.objects t.disappeared t.next_id
      t.max_disappeared hndobj hlt hkeys hval _ hAcc
    refine ⟨⟨q1, q2, q3, q4⟩, hAcc.2.1, rfl, rfl, ?_⟩
    exact hAcc.2.2.2.2.2.2.2

/-- An empty-detection update leaves `next_id`, the thresholds and the
`disappeared` keys alone, bumps every active id's count by one and leaves
every inactive id's count untouched. -/
theorem update_nil_spec {t : Tracker} (h : t.Inv) :
    (t.update []).1.next_id = t.next_id ∧
    (t.update []).1.max_distance = t.max_distance ∧
    (t.update []).1.max_disappeared = t.max_disappeared ∧
    (t.update []).1.disappeared.map Prod.fst = t.disappeared.map Prod.fst ∧
    (∀ p ∈ t.disappeared, alGet? (t.update []).1.disappeared p.1
      = some (if p.1 ∈ t.objects.map Prod.fst then p.2 + 1 else p.2)) := by
  obtain ⟨hkeys, hndobj, hlt, hval⟩ := h
  have hnddis : (t.disappeared.map Prod.fst).Nodup := by
    rw [hkeys]
    exact List.nodup_range _
  by_cases hlen : t.objects.length = 0
  · have hobjnil : t.objects = [] := List.length_eq_zero.mp hlen
    rw [update_eq_pos t [] hlen]
    refine ⟨rfl, rfl, rfl, rfl, ?_⟩
    intro p hp
    rw [hobjnil]
    simp only [List.map_nil, List.not_mem_nil, if_false]
    exact alGet?_of_mem hnddis hp
  · have hupd : t.update []
        = ({ t with
              objects := (agePass t.max_disappeared t.objects
                ([], t.disappeared)).1,
              disappeared := (agePass t.max_disappeared t.objects
                ([], t.disappeared)).2,
              next_id := t.next_id }, []) := by
      rw [update_eq_neg t [] hlen]
      simp only [matchPhase]
    rw [hupd]
    have hsub : ∀ p ∈ t.objects, p.1 ∈ t.disappeared.map Prod.fst := by
      intro p hp
      rw [hkeys, List.mem_range]
      exact hlt p hp
    obtain ⟨g1, g2, g3, g4⟩ :=
      agePass_spec t.max_disappeared t.objects [] t.disappeared hndobj hsub
    refine ⟨rfl, rfl, rfl, g1, ?_⟩
    intro p hp
    by_cases hm : p.1 ∈ t.objects.map Prod.fst
    · obtain ⟨q, hqO, hqk⟩ := List.mem_map.mp hm
      rw [if_pos hm, ← hqk, g3 q hqO (by simp)]
      rw [hqk, alGet?_of_mem hnddis hp]
      rfl
    · rw [if_neg hm, g2 p.1 (Or.inl hm), alGet?_of_mem hnddis hp]

/-- Iterated empty updates: each id ages by one step per frame while active and
freezes at `max_disappeared + 1` once dropped, so after `N` frames every id
ever allocated carries `min (initial + N) (max_disappeared + 1)`; no new id is
ever created. -/
theorem updateN_spec {t : Tracker} (h : t.Inv) (N : Nat) :
    (updateN t N).Inv ∧
    (updateN t N).next_id = t.next_id ∧
    (updateN t N).max_distance = t.max_distance ∧
    (updateN t N).max_disappeared = t.max_disappeared ∧
    (updateN t N).disappeared.map Prod.fst = t.disappeared.map Prod.fst ∧
    (∀ p ∈ t.disappeared, alGet? (updateN t N).disappeared p.1
      = some (min (p.2 + N) (t.max_disappeared + 1))) := by
  induction N with
  | zero =>
      refine ⟨h, rfl, rfl, rfl, rfl, ?_⟩
      intro p hp
      have hble : p.2 ≤ t.max_disappeared + 1 := by
        by_cases hm : p.1 ∈ t.objects.map Prod.fst
        · exact le_trans ((h.2.2.2 p hp).1 hm) (Nat.le_succ _)
        · exact le_of_eq ((h.2.2.2 p hp).2 hm)
      have hnddis : (t.disappeared.map Prod.fst).Nodup := by
        rw [h.1]
        exact List.nodup_range _
      have hget : alGet? (updateN t 0).disappeared p.1 = some p.2 :=
        alGet?_of_mem hnddis hp
      rw [hget]
      congr 1
      omega
  | succ n ih =>
      obtain ⟨ihInv, ihNext, ihMaxD, ihMx, ihKeys, ihVal⟩ := ih
      obtain ⟨u1, u2, u3, u4, u5⟩ := update_spec [] ihInv
      obtain ⟨s1, s2, s3, s4, s5⟩ := update_nil_spec ihInv
      have hstep : updateN t (n + 1) = ((updateN t n).update []).1 := rfl
      refine ⟨hstep ▸ u1, ?_, ?_, ?_, ?_, ?_⟩
      · rw [hstep, s1, ihNext]
      · rw [hstep, s2, ihMaxD]
      · rw [hstep, s3, ihMx]
      · rw [hstep, s4, ihKeys]
      · intro p hp
        have hv := ihVal p hp
        have hmem_n : (p.1, min (p.2 + n) (t.max_disappeared + 1))
            ∈ (updateN t n).disappeared := mem_of_alGet? hv
        have h5 := s5 _ hmem_n
        rw [hstep, h5]
        congr 1
        by_cases hm : p.1 ∈ (updateN t n).objects.map Prod.fst
        · rw [if_pos hm]
          have hvle := (ihInv.2.2.2 _ hmem_n).1 hm
          rw [ihMx] at hvle
          simp only at hvle
          omega
        · rw [if_neg hm]
          have hveq := (ihInv.2.2.2 _ hmem_n).2 hm
          rw [ihMx] at hveq
          simp only at hveq
          omega

theorem ingestFrame_skip_eq (commitOk : Nat → Bool) (st : CounterState)
    (dets : List (Int × Int)) (h : (st.frame_index + 1) % st.skip_frames ≠ 0) :
    ingestFrame commitOk st dets
      = ({ st with frame_index := st.frame_index + 1 }, FrameResult.skipped) := by
  simp only [ingestFrame]
  rw [if_pos h]

theorem ingestFrame_proc_eq (commitOk : Nat → Bool) (st : CounterState)
    (dets : List (Int × Int)) (h : (st.frame_index + 1) % st.skip_frames = 0)
    (hok : commitOk 0 = true) :
    ingestFrame commitOk st dets
      = ({ st with
            tracker := (st.tracker.update dets).1,
            lobby_count := (aggregateCount st.lobby_count st.events
              (((st.tracker.update dets).1.objects.map Prod.fst).length)).1,
            last_seen := updateLastSeen
              (cleanup_stale_ids st.last_seen
                ((st.tracker.update dets).1.objects.map Prod.fst)
                (st.frame_index + 1))
              (st.tracker.update dets).2 (st.frame_index + 1),
            frame_index := st.frame_index + 1,
            events := (aggregateCount st.lobby_count st.events
              (((st.tracker.update dets).1.objects.map Prod.fst).length)).2 },
         FrameResult.yielded) := by
  simp only [ingestFrame]
  rw [if_neg (not_not_intro h)]
  by_cases hchg : ((st.tracker.update dets).1.objects.map Prod.fst).length
      = st.lobby_count
  · rw [if_neg (not_not_intro hchg), aggregateCount, if_neg (not_not_intro hchg)]
  · rw [if_pos hchg, aggregateCount, if_pos hchg]
    simp only [log_event, hok, if_pos]

theorem ingestFrame_crash_eq (commitOk : Nat → Bool) (st : CounterState)
    (dets : List (Int × Int)) (h : (st.frame_index + 1) % st.skip_frames = 0)
    (hbad : commitOk 0 = false)
    (hchg : ((st.tracker.update dets).1.objects.map Prod.fst).length
      ≠ st.lobby_count) :
    ingestFrame commitOk st dets
      = ({ st with
            tracker := (st.tracker.update dets).1,
            lobby_count := ((st.tracker.update dets).1.objects.map Prod.fst).length,
            last_seen := cleanup_stale_ids st.last_seen
              ((st.tracker.update dets).1.objects.map Prod.fst)
              (st.frame_index + 1),
            frame_index := st.frame_index + 1 }, FrameResult.crashed) := by
  simp only [ingestFrame]
  rw [if_neg (not_not_intro h), if_pos hchg]
  simp only [log_event, hbad, Bool.false_eq_true, if_false]

theorem ingestFrame_frame_index (commitOk : Nat → Bool) (st : CounterState)
    (dets : List (Int × Int)) :
    (ingestFrame commitOk st dets).1.frame_index = st.frame_index + 1 := by
  by_cases h : (st.frame_index + 1) % st.skip_frames ≠ 0
  · rw [ingestFrame_skip_eq commitOk st dets h]
  · rw [not_not] at h
    cases hok : commitOk 0 with
    | true => rw [ingestFrame_proc_eq commitOk st dets h hok]
    | false =>
        by_cases hchg : ((st.tracker.update dets).1.objects.map Prod.fst).length
            = st.lobby_count
        · simp only [ingestFrame]
          rw [if_neg (not_not_intro h), if_neg (not_not_intro hchg)]
        · rw [ingestFrame_crash_eq commitOk st dets h hok hchg]

theorem ingestFrame_proc_unchanged_eq (commitOk : Nat → Bool)
    (st : CounterState) (dets : List (Int × Int))
    (h : (st.frame_index + 1) % st.skip_frames = 0)
    (hchg : ((st.tracker.update dets).1.objects.map Prod.fst).length
      = st.lobby_count) :
    ingestFrame commitOk st dets
      = ({ st with
            tracker := (st.tracker.update dets).1,
            last_seen := updateLastSeen
              (cleanup_stale_ids st.last_seen
                ((st.tracker.update dets).1.objects.map Prod.fst)
                (st.frame_index + 1))
              (st.tracker.update dets).2 (st.frame_index + 1),
            frame_index := st.frame_index + 1 }, FrameResult.yielded) := by
  simp only [ingestFrame]
  rw [if_neg (not_not_intro h), if_neg (not_not_intro hchg)]

theorem mem_foldl_alPop {α : Type} (ks : List Nat) :
    ∀ (l : List (Nat × α)) (p : Nat × α),
      p ∈ ks.foldl (fun acc k => alPop acc k) l ↔ p ∈ l ∧ p.1 ∉ ks := by
  induction ks with
  | nil => simp
  | cons k rest ih =>
      intro l p
      rw [List.foldl_cons, ih]
      unfold alPop
      rw [List.mem_filter]
      simp only [decide_eq_true_eq, List.mem_cons, not_or, and_assoc]

/-! ### Claims -/

/-- C1: on every processed frame with a healthy store, letting c be the recorded
lobby_count before the frame and a the tracker's active-set size after the
update, a CountEvent carrying value a is appended exactly when a differs from c,
the recorded lobby_count afterwards equals a, and an unchanged count appends
nothing; moreover the count sequence 0,1,1,2,1 yields exactly the three events
with values 1, 2, 1 in that order. -/
theorem c1_count_event_exactness :
    (∀ (commitOk : Nat → Bool) (st : CounterState) (dets : List (Int × Int)),
      (st.frame_index + 1) % st.skip_frames = 0 → commitOk 0 = true →
      (ingestFrame commitOk st dets).1.lobby_count
        = ((st.tracker.update dets).1.objects.map Prod.fst).length ∧
      (ingestFrame commitOk st dets).1.events
        = st.events ++
          (if ((st.tracker.update dets).1.objects.map Prod.fst).length
              = st.lobby_count then []
           else [⟨"PRESENT",
             ((st.tracker.update dets).1.objects.map Prod.fst).length⟩])) ∧
    ((([0, 1, 1, 2, 1] : List Nat).foldl
        (fun pr a => aggregateCount pr.1 pr.2 a)
        ((0, []) : Nat × List CountEvent)).2.map CountEvent.lobby_count
      = [1, 2, 1]) := by
  constructor
  · intro commitOk st dets hproc hok
    rw [ingestFrame_proc_eq commitOk st dets hproc hok]
    constructor
    · show (aggregateCount st.lobby_count st.events
        (((st.tracker.update dets).1.objects.map Prod.fst).length)).1 = _
      rw [aggregateCount]
      by_cases hchg : ((st.tracker.update dets).1.objects.map Prod.fst).length
          = st.lobby_count
      · rw [if_neg (not_not_intro hchg)]
        exact hchg.symm
      · rw [if_pos hchg]
    · show (aggregateCount st.lobby_count st.events
        (((st.tracker.update dets).1.objects.map Prod.fst).length)).2 = _
      rw [aggregateCount]
      by_cases hchg : ((st.tracker.update dets).1.objects.map Prod.fst).length
          = st.lobby_count
      · rw [if_neg (not_not_intro hchg), if_pos hchg]
        simp
      · rw [if_pos hchg, if_neg hchg]
  · rfl

theorem c1_witness :
    (ingestFrame (fun _ => true) (counterInit 1) [(5, 5)]).1.lobby_count = 1 ∧
    (ingestFrame (fun _ => true) (counterInit 1) [(5, 5)]).1.events
      = [⟨"PRESENT", 1⟩] := by
  have h := c1_count_event_exactness.1 (fun _ => true) (counterInit 1) [(5, 5)]
    (by decide) rfl
  exact ⟨h.1.trans (by rfl), h.2.trans (by rfl)⟩

/-- C6: the frame index advances once per ingested frame, but tracking work and
output happen only on frames with `frame_index % N = 0`: a skipped frame leaves
the whole state unchanged except for the frame index and yields nothing, a
frame passing the stride check is never skipped, and whether a frame is skipped
is exactly determined by the frame index and the stride. -/
theorem c6_frame_skipping :
    ∀ (commitOk : Nat → Bool) (st : CounterState) (dets : List (Int × Int)),
      (ingestFrame commitOk st dets).1.frame_index = st.frame_index + 1 ∧
      ((st.frame_index + 1) % st.skip_frames ≠ 0 →
        ingestFrame commitOk st dets
          = ({ st with frame_index := st.frame_index + 1 },
             FrameResult.skipped)) ∧
      ((st.frame_index + 1) % st.skip_frames = 0 →
        (ingestFrame commitOk st dets).2 ≠ FrameResult.skipped) ∧
      ((ingestFrame commitOk st dets).2 = FrameResult.skipped
        ↔ (st.frame_index + 1) % st.skip_frames ≠ 0) := by
  intro commitOk st dets
  have hproc : (st.frame_index + 1) % st.skip_frames = 0 →
      (ingestFrame commitOk st dets).2 ≠ FrameResult.skipped := by
    intro h
    by_cases hchg : ((st.tracker.update dets).1.objects.map Prod.fst).length
        = st.lobby_count
    · rw [ingestFrame_proc_unchanged_eq commitOk st dets h hchg]
      simp
    · cases hok : commitOk 0 with
      | true =>
          rw [ingestFrame_proc_eq commitOk st dets h hok]
          simp
      | false =>
          rw [ingestFrame_crash_eq commitOk st dets h hok hchg]
          simp
  refine ⟨ingestFrame_frame_index commitOk st dets,
    ingestFrame_skip_eq commitOk st dets, hproc, ?_⟩
  constructor
  · intro hs h0
    exact hproc h0 hs
  · intro hne
    rw [ingestFrame_skip_eq commitOk st dets hne]

theorem c6_witness :
    (ingestFrame (fun _ => true) (counterInit 2) [(5, 5)]).2
      = FrameResult.skipped ∧
    (ingestFrame (fun _ => true) (counterInit 2) [(5, 5)]).1.frame_index = 1 := by
  have h := c6_frame_skipping (fun _ => true) (counterInit 2) [(5, 5)]
  refine ⟨?_, h.1⟩
  rw [h.2.1 (by decide)]

/-- C7: the stale-memory cleanup removes a last-seen entry exactly when its id
is not in the active set and the current frame index exceeds its last-seen
frame by more than 90, and removes nothing else; an inactive entry last seen
at frame 10 is still present at frame 99 and is gone by frame 101. -/
theorem c7_stale_cleanup :
    (∀ (last_seen : List (Nat × Nat)) (active : List Nat) (frame : Nat),
      (last_seen.map Prod.fst).Nodup →
      ∀ p : Nat × Nat, p ∈ cleanup_stale_ids last_seen active frame
        ↔ p ∈ last_seen ∧
          (p.1 ∈ active ∨ ¬ ((frame : Int) - (p.2 : Int) > 90))) ∧
    ((0, 10) ∈ cleanup_stale_ids [(0, 10)] [] 99 ∧
     (0, 10) ∉ cleanup_stale_ids [(0, 10)] [] 101) := by
  constructor
  · intro last_seen active frame hnd p
    unfold cleanup_stale_ids
    rw [mem_foldl_alPop]
    constructor
    · rintro ⟨hmem, hstale⟩
      refine ⟨hmem, ?_⟩
      by_contra hc
      push_neg at hc
      refine hstale ?_
      refine List.mem_filter.mpr ⟨List.mem_map_of_mem Prod.fst hmem, ?_⟩
      rw [decide_eq_true_eq, alGet?_of_mem hnd hmem]
      exact ⟨hc.1, hc.2⟩
    · rintro ⟨hmem, hkeep⟩
      refine ⟨hmem, ?_⟩
      intro hstale
      obtain ⟨-, hcond⟩ := List.mem_filter.mp hstale
      rw [decide_eq_true_eq, alGet?_of_mem hnd hmem] at hcond
      rcases hkeep with hkeep | hkeep
      · exact hcond.1 hkeep
      · exact hkeep hcond.2
  · exact ⟨by decide, by decide⟩

theorem c7_witness :
    (0, 10) ∈ cleanup_stale_ids [(0, 10)] [] 100 ↔
      ((0, 10) ∈ [((0 : Nat), (10 : Nat))] ∧
        ((0 : Nat) ∈ ([] : List Nat) ∨ ¬ ((100 : Int) - (10 : Int) > 90))) :=
  c7_stale_cleanup.1 [(0, 10)] [] 100 (by decide) (0, 10)

/-- C9: every call to current_stats returns the lobby_count of the most recent
persisted CountEvent (0 when none exist) and overwrites the live pipeline's
in-memory lobby_count with it, so the next processed frame's event-emission
decision compares the new active-set size against this store-derived value. -/
theorem c9_current_stats :
    ∀ st : CounterState,
      (current_stats st).1
        = ((st.events.getLast?).map CountEvent.lobby_count).getD 0 ∧
      (current_stats st).2
        = { st with lobby_count :=
              ((st.events.getLast?).map CountEvent.lobby_count).getD 0 } ∧
      (∀ dets : List (Int × Int),
        (st.frame_index + 1) % st.skip_frames = 0 →
        ((ingestFrame (fun _ => true) (current_stats st).2 dets).1.events
            ≠ st.events
          ↔ ((st.tracker.update dets).1.objects.map Prod.fst).length
              ≠ ((st.events.getLast?).map CountEvent.lobby_count).getD 0)) := by
  intro st
  refine ⟨rfl, rfl, ?_⟩
  intro dets hproc
  rw [ingestFrame_proc_eq (fun _ => true) (current_stats st).2 dets hproc rfl]
  show (aggregateCount (((st.events.getLast?).map CountEvent.lobby_count).getD 0)
      st.events
      (((st.tracker.update dets).1.objects.map Prod.fst).length)).2 ≠ st.events
    ↔ _
  rw [aggregateCount]
  by_cases hchg : ((st.tracker.update dets).1.objects.map Prod.fst).length
      = ((st.events.getLast?).map CountEvent.lobby_count).getD 0
  · rw [if_neg (not_not_intro hchg)]
    simp [hchg]
  · rw [if_pos hchg]
    constructor
    · intro _
      exact hchg
    · intro _ hc
      have := congrArg List.length hc
      simp at this

theorem c9_witness :
    (current_stats { counterInit 1 with events := [⟨"PRESENT", 3⟩] }).1 = 3 ∧
    (current_stats { counterInit 1 with
      events := [⟨"PRESENT", 3⟩] }).2.lobby_count = 3 := by
  have h := c9_current_stats { counterInit 1 with events := [⟨"PRESENT", 3⟩] }
  exact ⟨h.1.trans (by rfl), by rw [h.2.1]; rfl⟩

/-- C2: after every update on a reachable tracker state, the active set is
exactly the identities whose disappeared count is at most max_disappeared; with
max_disappeared = 12, an identity just matched at (10,10) survives 12
consecutive absent frames, is removed exactly on the 13th (count 13), and its
id is never handed out again (a later new detection gets id 1, not 0). -/
theorem c2_active_set :
    (∀ (t : Tracker) (dets : List (Int × Int)), t.Inv →
      ∀ p ∈ (t.update dets).1.disappeared,
        (p.1 ∈ (t.update dets).1.objects.map Prod.fst
          ↔ p.2 ≤ t.max_disappeared)) ∧
    (0 ∈ (updateN ⟨1, [(0, (10, 10))], [(0, 0)], 70, 12⟩ 12).objects.map
        Prod.fst ∧
     (updateN ⟨1, [(0, (10, 10))], [(0, 0)], 70, 12⟩ 13).objects = [] ∧
     alGet? (updateN ⟨1, [(0, (10, 10))], [(0, 0)], 70, 12⟩ 13).disappeared 0
       = some 13 ∧
     ((updateN ⟨1, [(0, (10, 10))], [(0, 0)], 70, 12⟩ 13).update [(10, 10)]).2
       = [1]) := by
  constructor
  · intro t dets hInv p hp
    obtain ⟨u1, u2, u3, u4, u5⟩ := update_spec dets hInv
    have h4 := u1.2.2.2 p hp
    rw [u4] at h4
    constructor
    · exact h4.1
    · intro hle
      by_contra hnm
      have := h4.2 hnm
      omega
  · exact ⟨by decide, by decide, by decide, by decide⟩

theorem c2_witness :
    0 ∈ ((⟨1, [(0, (10, 10))], [(0, 0)], 70, 12⟩ : Tracker).update
      [(12, 10)]).1.objects.map Prod.fst := by
  have h := c2_active_set.1 (⟨1, [(0, (10, 10))], [(0, 0)], 70, 12⟩ : Tracker)
    [(12, 10)] ⟨by decide, by decide, by decide, by decide⟩ (0, 0) (by decide)
  exact h.mpr (by decide)

/-- C3 as stated is false at a concrete reachable state: after registering ids
0 at (0,0) and 1 at (100,0) and then matching them in swapped order, the object
map iterates as [1, 0]; the detection (50,0) is exactly equidistant from both
(squared distance 2500 on each side, strictly under 70² = 4900, both ids
unclaimed and active), yet update assigns id 1 — not the smaller id 0 that the
claim's ascending-id tie-break requires. -/
theorem c3_counterexample :
    ((((trackerInit 70 12).update [(0, 0), (100, 0)]).1.update
        [(100, 0), (0, 0)]).1.objects.map Prod.fst = [1, 0]) ∧
    distSq (50, 0) (100, 0) = distSq (50, 0) (0, 0) ∧
    distSq (50, 0) (0, 0) < (70 : Int) ^ 2 ∧
    (((((trackerInit 70 12).update [(0, 0), (100, 0)]).1.update
        [(100, 0), (0, 0)]).1.update [(50, 0)]).2 = [1]) ∧
    ¬ (((((trackerInit 70 12).update [(0, 0), (100, 0)]).1.update
        [(100, 0), (0, 0)]).1.update [(50, 0)]).2 = [0]) := by
  exact ⟨by decide, by decide, by decide, by decide, by decide⟩

/-- C3 (amended): update performs single-pass greedy matching in detection
input order; each detection is assigned the currently-unclaimed identity of
minimum Euclidean distance strictly under max_distance, a distance tie between
unclaimed identities being resolved in favor of the one appearing earliest in
the object map's iteration (insertion) order — which coincides with ascending
id only when that order happens to be ascending; a detection with no qualifying
identity allocates a fresh identity with disappeared count 0.  Scenario 2
holds: with tracker {0: (10,10)} and max_distance 50, detection (15,12) is
assigned id 0 and disappeared[0] becomes 0. -/
theorem c3_greedy_matching :
    (∀ (used : List Nat) (c : Int × Int) (maxD : Nat)
        (objects : List (Nat × Int × Int)) (b : Nat),
      findBest used c maxD objects = some b →
      ∃ (i : Nat) (q : Nat × Int × Int), objects[i]? = some q ∧ q.1 = b ∧
        Qual used c maxD q ∧
        (∀ p ∈ objects, Qual used c maxD p → distSq c q.2 ≤ distSq c p.2) ∧
        (∀ j, j < i → ∀ q2, objects[j]? = some q2 → Qual used c maxD q2 →
          distSq c q.2 < distSq c q2.2)) ∧
    (∀ (used : List Nat) (c : Int × Int) (maxD : Nat)
        (objects : List (Nat × Int × Int)),
      findBest used c maxD objects = none
        ↔ ∀ p ∈ objects, ¬ Qual used c maxD p) ∧
    (∀ (maxD : Nat) (objects : List (Nat × Int × Int)) (acc : MatchAcc)
        (c : Int × Int),
      findBest acc.used c maxD objects = none →
      (matchStep maxD objects acc c).assignments
          = acc.assignments ++ [(acc.next_id : Int)] ∧
      alGet? (matchStep maxD objects acc c).disappeared acc.next_id = some 0 ∧
      (matchStep maxD objects acc c).next_id = acc.next_id + 1) ∧
    (((⟨1, [(0, (10, 10))], [(0, 0)], 50, 10⟩ : Tracker).update [(15, 12)]).2
        = [0] ∧
     alGet? ((⟨1, [(0, (10, 10))], [(0, 0)], 50, 10⟩ : Tracker).update
       [(15, 12)]).1.disappeared 0 = some 0) := by
  refine ⟨fun used c maxD objects b h => findBest_some_spec h,
    fun used c maxD objects => findBest_eq_none_iff, ?_, by decide, by decide⟩
  intro maxD objects acc c hfb
  simp only [matchStep, hfb]
  exact ⟨trivial, alGet?_alSet_self _ _ _, trivial⟩

theorem c3_witness :
    ∃ (i : Nat) (q : Nat × Int × Int),
      [((0 : Nat), ((10 : Int), (10 : Int)))][i]? = some q ∧ q.1 = 0 ∧
      Qual [] (15, 12) 50 q ∧
      (∀ p ∈ [((0 : Nat), ((10 : Int), (10 : Int)))],
        Qual [] (15, 12) 50 p → distSq (15, 12) q.2 ≤ distSq (15, 12) p.2) ∧
      (∀ j, j < i → ∀ q2, [((0 : Nat), ((10 : Int), (10 : Int)))][j]? = some q2 →
        Qual [] (15, 12) 50 q2 → distSq (15, 12) q.2 < distSq (15, 12) q2.2) :=
  c3_greedy_matching.1 [] (15, 12) 50 [(0, (10, 10))] 0 (by decide)

/-- C4: across any sequence of update calls on a reachable state, the freshly
allocated ids are exactly next_id, next_id + 1, ... in allocation order —
strictly increasing, never reused, and distinct from every id ever allocated
before (those are exactly 0..next_id-1, recorded forever in the disappeared
map's key set). -/
theorem c4_ids_never_reused :
    ∀ (t : Tracker) (ds : List (List (Int × Int))), t.Inv →
      t.next_id ≤ (runUpdates t ds).next_id ∧
      runFresh t ds = (List.range' t.next_id
        ((runUpdates t ds).next_id - t.next_id)).map Int.ofNat ∧
      (runUpdates t ds).disappeared.map Prod.fst
        = List.range (runUpdates t ds).next_id := by
  intro t ds
  induction ds generalizing t with
  | nil =>
      intro h
      exact ⟨le_refl _, by simp [runFresh, runUpdates], h.1⟩
  | cons d ds ih =>
      intro h
      obtain ⟨u1, u2, u3, u4, u5⟩ := update_spec d h
      obtain ⟨i1, i2, i3⟩ := ih (t.update d).1 u1
      have hrun : runUpdates t (d :: ds) = runUpdates (t.update d).1 ds := rfl
      have hfresh : runFresh t (d :: ds)
          = (t.update d).2.filter (fun a => (t.next_id : Int) ≤ a)
            ++ runFresh (t.update d).1 ds := rfl
      rw [hrun, hfresh]
      refine ⟨le_trans u2 i1, ?_, i3⟩
      rw [u5, i2, ← List.map_append]
      congr 1
      have happ := List.range'_append t.next_id
        ((t.update d).1.next_id - t.next_id)
        ((runUpdates (t.update d).1 ds).next_id - (t.update d).1.next_id) 1
      rw [one_mul, Nat.add_sub_cancel' u2] at happ
      rw [happ]
      congr 1
      omega

theorem c4_witness :
    runFresh (trackerInit 70 12) [[(0, 0)], [(100, 100)]] = [(0 : Int), 1] := by
  have h := c4_ids_never_reused (trackerInit 70 12) [[(0, 0)], [(100, 100)]]
    (trackerInit_Inv 70 12)
  rw [h.2.1]
  rfl

/-- C5 as stated is false: a failing CountEvent append is not retried —
_log_event performs exactly one commit attempt (not two), and the raised error
escapes generate_frames, terminating the frame loop instead of being surfaced
as a recoverable warning; concretely, with a store that fails every attempt,
the first count-changing frame crashes the loop, though the in-memory
lobby_count does keep its updated value 1 while the store stays empty. -/
theorem c5_counterexample :
    (log_event (fun _ => false) [] 1).2 = 1 ∧
    ¬ (log_event (fun _ => false) [] 1).2 = 2 ∧
    (ingestFrame (fun _ => false) (counterInit 1) [(5, 5)]).2
      = FrameResult.crashed ∧
    (ingestFrame (fun _ => false) (counterInit 1) [(5, 5)]).1.lobby_count = 1 ∧
    (ingestFrame (fun _ => false) (counterInit 1) [(5, 5)]).1.events = [] := by
  exact ⟨rfl, by decide, by decide, by decide, by decide⟩

/-- C5 (amended): when appending a CountEvent fails, the append is attempted
exactly once with no retry; the failure propagates out of the frame loop and
terminates it (it is not contained as a recoverable warning), the store is left
unchanged, and the in-memory lobby_count does keep its updated value, because
it is assigned before _log_event is called. -/
theorem c5_append_failure :
    ∀ (st : CounterState) (dets : List (Int × Int)),
      (st.frame_index + 1) % st.skip_frames = 0 →
      ((st.tracker.update dets).1.objects.map Prod.fst).length
        ≠ st.lobby_count →
      (log_event (fun _ => false) st.events
        (((st.tracker.update dets).1.objects.map Prod.fst).length)).2 = 1 ∧
      (ingestFrame (fun _ => false) st dets).2 = FrameResult.crashed ∧
      (ingestFrame (fun _ => false) st dets).1.lobby_count
        = ((st.tracker.update dets).1.objects.map Prod.fst).length ∧
      (ingestFrame (fun _ => false) st dets).1.events = st.events := by
  intro st dets hproc hchg
  rw [ingestFrame_crash_eq (fun _ => false) st dets hproc rfl hchg]
  exact ⟨rfl, rfl, rfl, rfl⟩

theorem c5_witness :
    (ingestFrame (fun _ => false) (counterInit 1) [(7, 7)]).2
        = FrameResult.crashed ∧
    (ingestFrame (fun _ => false) (counterInit 1) [(7, 7)]).1.lobby_count
        = 1 := by
  have h := c5_append_failure (counterInit 1) [(7, 7)] (by decide) (by decide)
  exact ⟨h.2.1, h.2.2.1.trans (by rfl)⟩

/-- C8: on every reachable tracker state, N ≥ 1 consecutive empty-detection
updates create no new identities (next_id and the key set are unchanged) and
raise every identity's disappeared count by exactly N, clamped at
max_disappeared + 1 — the value at which an identity drops; a single empty
update ages every active identity by exactly one step. -/
theorem c8_empty_updates :
    ∀ (t : Tracker) (N : Nat), t.Inv → 1 ≤ N →
      (updateN t N).next_id = t.next_id ∧
      (updateN t N).disappeared.map Prod.fst = t.disappeared.map Prod.fst ∧
      (∀ p ∈ t.disappeared, alGet? (updateN t N).disappeared p.1
        = some (min (p.2 + N) (t.max_disappeared + 1))) ∧
      (∀ p ∈ t.disappeared, p.1 ∈ t.objects.map Prod.fst →
        alGet? (updateN t 1).disappeared p.1 = some (p.2 + 1)) := by
  intro t N h hN
  obtain ⟨n1, n2, n3, n4, n5, n6⟩ := updateN_spec h N
  refine ⟨n2, n5, n6, ?_⟩
  intro p hp hm
  obtain ⟨m1, m2, m3, m4, m5, m6⟩ := updateN_spec h 1
  rw [m6 p hp]
  congr 1
  have hle := (h.2.2.2 p hp).1 hm
  omega

theorem c8_witness :
    (updateN (⟨1, [(0, (10, 10))], [(0, 0)], 70, 12⟩ : Tracker) 3).next_id
        = 1 ∧
    alGet? (updateN (⟨1, [(0, (10, 10))], [(0, 0)], 70, 12⟩ : Tracker)
      3).disappeared 0 = some 3 := by
  have h := c8_empty_updates (⟨1, [(0, (10, 10))], [(0, 0)], 70, 12⟩ : Tracker)
    3 ⟨by decide, by decide, by decide, by decide⟩ (by decide)
  refine ⟨h.1, ?_⟩
  have h3 := h.2.2.1 (0, 0) (by decide)
  simpa using h3

/-- C10: the disappeared map never shrinks — after any update on a reachable
state its key set is exactly all ids ever allocated (0..next_id-1), so every id
ever created, including ids long dropped from the active set, is still a key,
and the map's size equals the total number of identities ever created. -/
theorem c10_disappeared_monotone :
    ∀ (t : Tracker) (dets : List (Int × Int)), t.Inv →
      (t.update dets).1.disappeared.map Prod.fst
        = List.range (t.update dets).1.next_id ∧
      t.next_id ≤ (t.update dets).1.next_id ∧
      (∀ p ∈ t.disappeared, p.1 ∈ (t.update dets).1.disappeared.map Prod.fst) ∧
      (t.update dets).1.disappeared.length = (t.update dets).1.next_id := by
  intro t dets h
  obtain ⟨u1, u2, u3, u4, u5⟩ := update_spec dets h
  refine ⟨u1.1, u2, ?_, ?_⟩
  · intro p hp
    rw [u1.1, List.mem_range]
    have hk : p.1 ∈ t.disappeared.map Prod.fst :=
      List.mem_map_of_mem Prod.fst hp
    rw [h.1, List.mem_range] at hk
    omega
  · have hlen := congrArg List.length u1.1
    rw [List.length_map, List.length_range] at hlen
    exact hlen

theorem c10_witness :
    ((trackerInit 70 12).update [(0, 0)]).1.disappeared.length
      = ((trackerInit 70 12).update [(0, 0)]).1.next_id :=
  (c10_disappeared_monotone (trackerInit 70 12) [(0, 0)]
    (trackerInit_Inv 70 12)).2.2.2
